import Mathlib

/-!
# Verification of the serde-cs2 codec (src/ser.rs, src/de.rs, src/error.rs)

A shallow embedding of the cs2 line-oriented codec.  Rust strings are
modelled as `List Char`; the serializer's `(level, output)` state and the
deserializer's `(input, keys)` state are explicit structures; fallible
operations return `Except`.  Every definition below is translated from the
Rust source, except where a doc comment says it models the external
serde traversal framework (specified in the spec, §6) that drives the codec.
-/

namespace Cs2

/-- Rust `&str` contents, modelled as a list of characters. -/
abbrev Str := List Char

/-- Conversion from a Lean string literal. -/
def strOf (s : String) : Str := s.toList

/-- Rust `char::is_whitespace` (the Unicode `White_Space` property). -/
def isWsChar (c : Char) : Bool :=
  let n := c.toNat
  (n == 0x20) || (n == 0x09) || (n == 0x0A) || (n == 0x0B) || (n == 0x0C) ||
  (n == 0x0D) || (n == 0x85) || (n == 0xA0) || (n == 0x1680) ||
  (0x2000 ≤ n && n ≤ 0x200A) || (n == 0x2028) || (n == 0x2029) ||
  (n == 0x202F) || (n == 0x205F) || (n == 0x3000)

/-- Rust `str::find(c)`: index of the first occurrence of a character. -/
def findCharIdx (t : Char) : Str → Option Nat
  | [] => none
  | c :: cs => if c = t then some 0 else (findCharIdx t cs).map (· + 1)

/-- `s.ends_with(pat)` on strings. -/
def endsWith (s pat : Str) : Bool := pat.isSuffixOf s

/-- `s.starts_with(pat)` on strings. -/
def startsWith (s pat : Str) : Bool := pat.isPrefixOf s

/-- `s.trim_start()`: drop leading whitespace. -/
def trimStart (s : Str) : Str := s.dropWhile isWsChar

/-- `s.trim_start_matches(c)`: drop leading occurrences of one character. -/
def trimMatches (t : Char) (s : Str) : Str := s.dropWhile (· == t)

/-- `'0'..='9'` pattern on a character. -/
def isDigCh (c : Char) : Bool := 48 ≤ c.toNat && c.toNat ≤ 57

/-- `ch as u8 - b'0'`. -/
def digVal (c : Char) : Nat := c.toNat - 48

/-- Decimal digit to character. -/
def digCh (d : Nat) : Char := Char.ofNat (48 + d)

/-- Rust `u64::to_string` / `Display` for unsigned integers: tail of digits
(well-founded form, used in proofs). -/
def natDecimalGo : Nat → Str → Str
  | n, acc =>
    if h : n = 0 then acc
    else natDecimalGo (n / 10) (digCh (n % 10) :: acc)
  termination_by n => n
  decreasing_by exact Nat.div_lt_self (Nat.pos_of_ne_zero h) (by omega)

/-- The same digit-peeling loop with explicit fuel, so the kernel can reduce
it on concrete inputs; `fuel ≥ n` always suffices. -/
def natDecimalAux : Nat → Nat → Str → Str
  | 0, _, acc => acc
  | fuel + 1, n, acc =>
    if n = 0 then acc else natDecimalAux fuel (n / 10) (digCh (n % 10) :: acc)

/-- Rust `to_string()` of an unsigned integer. -/
def natDecimal (n : Nat) : Str := if n = 0 then ['0'] else natDecimalAux n n []

/-- Rust `to_string()` of a signed integer (`i64` rendering). -/
def intDecimal (i : Int) : Str :=
  if i < 0 then '-' :: natDecimal i.natAbs else natDecimal i.toNat

/-! ## Serializer state and error type (src/ser.rs, src/error.rs) -/

/-- `ser.rs` `UnsupportedType`. -/
inductive UnsupportedType where
  | map | newtypeStruct | newtypeVariant | unit | unitStruct | unitVariant
deriving DecidableEq, Repr

/-- `ser.rs` `Error`. -/
inductive SerErr where
  | custom (msg : Str)
  | unsupportedType (t : UnsupportedType)
deriving DecidableEq, Repr

/-- `ser.rs` `Serializer { level: usize, output: String }`. -/
structure Serializer where
  level : Nat
  output : Str
deriving DecidableEq, Repr

/-- `Serializer::default()`. -/
def Serializer.init : Serializer := { level := 0, output := [] }

/-- `self.output += s`. -/
def Serializer.push (st : Serializer) (s : Str) : Serializer :=
  { st with output := st.output ++ s }

/-- `fn serialize_bool`: appends `"1"` for true and `"0"` for false. -/
def serializeBool (v : Bool) (st : Serializer) : Serializer :=
  st.push (if v then ['1'] else ['0'])

/-- `fn serialize_i64`: appends `v.to_string()`. -/
def serializeI64 (v : Int) (st : Serializer) : Serializer := st.push (intDecimal v)

/-- `fn serialize_u64`: appends `v.to_string()`. -/
def serializeU64 (v : Nat) (st : Serializer) : Serializer := st.push (natDecimal v)

/-- `fn serialize_f64`: appends `v.to_string()` and returns `Ok(())`.  The
float-to-decimal rendering is outside the model: the rendered string is
taken as a parameter; the success/failure behaviour is exact. -/
def serializeF64 (rendered : Str) (st : Serializer) : Except SerErr Serializer :=
  .ok (st.push rendered)

/-- `fn serialize_str`: appends the string. -/
def serializeStr (v : Str) (st : Serializer) : Serializer := st.push v

/-- `fn serialize_char`: forwards to `serialize_str(&v.to_string())`. -/
def serializeChar (v : Char) (st : Serializer) : Except SerErr Serializer :=
  .ok (serializeStr [v] st)

/-- `fn serialize_none`: an absent optional writes nothing. -/
def serializeNone (st : Serializer) : Serializer := st

/-- `fn serialize_unit`: unsupported. -/
def serializeUnit (_st : Serializer) : Except SerErr Serializer :=
  .error (.unsupportedType .unit)

/-- `fn serialize_unit_struct`: unsupported. -/
def serializeUnitStruct (_name : Str) (_st : Serializer) : Except SerErr Serializer :=
  .error (.unsupportedType .unitStruct)

/-- `fn serialize_unit_variant`: unsupported. -/
def serializeUnitVariant (_name _variant : Str) (_st : Serializer) :
    Except SerErr Serializer :=
  .error (.unsupportedType .unitVariant)

/-- `fn serialize_newtype_variant`: unsupported. -/
def serializeNewtypeVariant (_name _variant : Str) (_st : Serializer) :
    Except SerErr Serializer :=
  .error (.unsupportedType .newtypeVariant)

/-- `name.starts_with("[") && name.ends_with("]")` (the transparent root tag test
inside `serialize_struct`). -/
def isBracketName (name : Str) : Bool :=
  startsWith name ['['] && endsWith name [']']

/-- `fn serialize_struct` (ser.rs lines 290-321): strips a trailing `=` left by
the enclosing field, then either emits a fresh header line (incrementing the
level unless this is a bracket-tagged struct at level 0) or — when the output
already ends with the tag — elides the header and only increments the level. -/
def serializeStructOpen (name : Str) (st : Serializer) : Serializer :=
  let st1 := if endsWith st.output ['='] then { st with output := st.output.dropLast } else st
  if ¬ endsWith st1.output name then
    let st2 :=
      if st1.level > 0 then
        st1.push ('\n' :: ' ' :: List.replicate st1.level '.')
      else if st1.output ≠ [] ∧ ¬ endsWith st1.output ['\n'] then
        st1.push ['\n']
      else st1
    let st3 := if ¬ (st2.level = 0 ∧ isBracketName name) then { st2 with level := st2.level + 1 } else st2
    st3.push name
  else
    let st2 := if st1.output ≠ [] ∧ ¬ endsWith st1.output ['\n'] then st1.push ['\n'] else st1
    { st2 with level := st2.level + 1 }

/-- `SerializeStruct::serialize_field`, the part before the value is serialized:
newline separator, ` ` + one `.` per level of indentation, the key, and `=`. -/
def serFieldStart (key : Str) (st : Serializer) : Serializer :=
  let st1 := if ¬ endsWith st.output ['\n'] then st.push ['\n'] else st
  let st2 := if st1.level > 0 then st1.push (' ' :: List.replicate st1.level '.') else st1
  (st2.push key).push ['=']

/-- `SerializeStruct::end`: `self.level = self.level.saturating_sub(1)`
(`Nat` subtraction is saturating). -/
def serializeStructEnd (st : Serializer) : Serializer :=
  { st with level := st.level - 1 }

/-- `SerializeTuple::serialize_element`, the separator logic before the element
value: a space is appended unless the output still ends with `=`. -/
def serTupleElemStart (st : Serializer) : Serializer :=
  if ¬ endsWith st.output ['='] then st.push [' '] else st

/-! ## The structured-value tree and the serde-driven encoding

The serde traversal framework (external, spec §6) walks a typed value and
calls the `Serializer` methods field by field.  `Field` is the shape of the
values the cs2 schema supports (spec §3): scalar fields, skipped absent
optionals (`skip_serializing_if`), fixed tuples of scalars, nested records and
sequences of records.  Per spec invariant 2 a nested record or sequence field
uses the record tag as its field key, so the constructors carry the tag once. -/

/-- The supported scalar kinds and their serialized renderings. -/
inductive Scalar where
  | bVal (b : Bool)
  | iVal (i : Int)
  | uVal (n : Nat)
  | sVal (s : Str)
deriving DecidableEq, Repr

/-- The text a scalar appends (via `serialize_bool` / `_i64` / `_u64` / `_str`). -/
def Scalar.render : Scalar → Str
  | .bVal b => if b then ['1'] else ['0']
  | .iVal i => intDecimal i
  | .uVal n => natDecimal n
  | .sVal s => s

/-- Serializing one scalar value (dispatch of the serde data model). -/
def serScalar (sc : Scalar) (st : Serializer) : Serializer :=
  match sc with
  | .bVal b => serializeBool b st
  | .iVal i => serializeI64 i st
  | .uVal n => serializeU64 n st
  | .sVal s => serializeStr s st

/-- A record field as the traversal framework presents it to the encoder. -/
inductive Field where
  | scalarF (key : Str) (sc : Scalar) : Field
  | absentF (key : Str) : Field
  | tupleF (key : Str) (es : List Scalar) : Field
  | recordF (tag : Str) (fs : List Field) : Field
  | seqF (tag : Str) (es : List (List Field)) : Field

/-- The field key the framework passes to `serialize_field` (for nested records
and sequences this is the record tag, per spec invariant 2). -/
def Field.keyOf : Field → Str
  | .scalarF k _ => k
  | .absentF k => k
  | .tupleF k _ => k
  | .recordF t _ => t
  | .seqF t _ => t

mutual

/-- Value serialization for one field value, called right after
`serialize_field` wrote `key=`; absent optionals are `serialize_none`. -/
def serFieldVal : Field → Serializer → Serializer
  | .scalarF _ sc, st => serScalar sc st
  | .absentF _, st => serializeNone st
  | .tupleF _ es, st => serTupleElems es st
  | .recordF t fs, st => serializeStructEnd (serFields fs (serializeStructOpen t st))
  | .seqF t es, st => serSeqElems t es st

/-- `SerializeTuple`: each element is separator logic plus the scalar. -/
def serTupleElems : List Scalar → Serializer → Serializer
  | [], st => st
  | e :: es, st => serTupleElems es (serScalar e (serTupleElemStart st))

/-- `SerializeSeq` over a `Vec` of records: each element is a full
struct serialization at the current state. -/
def serSeqElems (t : Str) : List (List Field) → Serializer → Serializer
  | [], st => st
  | e :: es, st => serSeqElems t es (serializeStructEnd (serFields e (serializeStructOpen t st)))

/-- `SerializeStruct`: fields in order; a field carrying
`skip_serializing_if` whose value is absent is skipped by the framework. -/
def serFields : List Field → Serializer → Serializer
  | [], st => st
  | .absentF _ :: rest, st => serFields rest st
  | f :: rest, st => serFields rest (serFieldVal f (serFieldStart f.keyOf st))

end

/-- `to_string` of a top-level record with tag `t` and fields `fs`. -/
def serTop (t : Str) (fs : List Field) : Serializer :=
  serializeStructEnd (serFields fs (serializeStructOpen t Serializer.init))

/-! ## Reference rendering with an explicit depth parameter

Following the spec's words (§4.1-§4.2): every field line carries a depth
marker of one `.` per enclosing non-transparent record, preceded by a single
space; entering a record increments the depth for its children; the
bracket-tagged root container is transparent, so its children render at
depth 0.  `refFieldsB` makes the depth `d` explicit; the refinement theorem
for C3 proves the encoder equal to this renderer. -/

/-- The indentation of a line at depth `d`: a space and `d` dots (nothing at
depth 0). -/
def fieldIndent (d : Nat) : Str :=
  if d > 0 then ' ' :: List.replicate d '.' else []

/-- The leading newline of a field line, suppressed when the output already
ends with a newline (flag `b`). -/
def nlStr (b : Bool) : Str := if b then [] else ['\n']

/-- `" "`-joined scalar renderings of a tuple line. -/
def joinSp : List Str → Str
  | [] => []
  | [s] => s
  | s :: rest => s ++ ' ' :: joinSp rest

mutual

/-- Reference rendering of one (emitted) field at depth `d`. -/
def refField (b : Bool) (d : Nat) : Field → Str
  | .scalarF k sc => nlStr b ++ fieldIndent d ++ k ++ '=' :: sc.render
  | .absentF _ => []
  | .tupleF k es => nlStr b ++ fieldIndent d ++ k ++ '=' :: joinSp (es.map Scalar.render)
  | .recordF t fs => nlStr b ++ fieldIndent d ++ t ++ '\n' :: refFieldsB true (d + 1) fs
  | .seqF t es =>
    match es with
    | [] => nlStr b ++ fieldIndent d ++ t ++ ['=']
    | e :: rest =>
      nlStr b ++ fieldIndent d ++ t ++ '\n' :: refFieldsB true (d + 1) e ++ refElemsRest d t rest

/-- Reference rendering of the second and later sequence elements: each one is
a fresh header line at depth `d` followed by its fields at depth `d + 1`. -/
def refElemsRest (d : Nat) (t : Str) : List (List Field) → Str
  | [] => []
  | e :: es => '\n' :: fieldIndent d ++ t ++ refFieldsB false (d + 1) e ++ refElemsRest d t es

/-- Reference rendering of a field list at depth `d`; absent optional fields
contribute nothing; `b` suppresses the first field's leading newline. -/
def refFieldsB (b : Bool) (d : Nat) : List Field → Str
  | [] => []
  | .absentF _ :: rest => refFieldsB b d rest
  | f :: rest => refField b d f ++ refFieldsB false d rest

end

/-- Reference rendering of a whole document: the root header followed by the
root's fields, at depth 0 when the root tag is bracket-delimited (transparent
root) and at depth 1 otherwise. -/
def refTop (t : Str) (fs : List Field) : Str :=
  t ++ refFieldsB false (if isBracketName t then 0 else 1) fs

/-! ### Schema conformance

The decidable side conditions under which the encoder agrees with the
reference renderer: tags end in a letter, scalar strings do not end in a
newline, tuples are nonempty with nonempty renderings not ending in `=`,
records and sequence elements emit at least one field, and a sequence
element's rendering never ends with its own tag's last character (so the next
element's header is not elided by the `ends_with(name)` test). -/

/-- A tag that is usable for nested records and sequence elements. -/
def tagOk (t : Str) : Bool :=
  match t.getLast? with
  | some c => c.isAlpha
  | none => false

/-- A tuple element rendering: nonempty, not ending in `=` or `\n`. -/
def tupElemOk (sc : Scalar) : Bool :=
  sc.render ≠ [] && sc.render.getLast? ≠ some '=' && sc.render.getLast? ≠ some '\n'

mutual

/-- Conformance of one field appearing at depth `d`. -/
def confField (d : Nat) : Field → Bool
  | .scalarF _ sc => sc.render.getLast? ≠ some '\n'
  | .absentF _ => true
  | .tupleF _ es => es ≠ [] && es.all tupElemOk
  | .recordF t fs =>
    tagOk t && confFields (d + 1) fs &&
    refFieldsB true (d + 1) fs ≠ [] &&
    (refFieldsB true (d + 1) fs).getLast? ≠ some '\n'
  | .seqF t es => tagOk t && !es.isEmpty && confElems d t es

/-- Conformance of the elements of a sequence tagged `t` at depth `d`. -/
def confElems (d : Nat) (t : Str) : List (List Field) → Bool
  | [] => true
  | e :: es =>
    confFields (d + 1) e &&
    refFieldsB true (d + 1) e ≠ [] &&
    (refFieldsB true (d + 1) e).getLast? ≠ some '\n' &&
    (refFieldsB true (d + 1) e).getLast? ≠ some '=' &&
    (refFieldsB true (d + 1) e).getLast? ≠ t.getLast? &&
    confElems d t es

/-- Conformance of a field list at depth `d`. -/
def confFields (d : Nat) : List Field → Bool
  | [] => true
  | f :: rest => confField d f && confFields d rest

end

/-! ## Deserializer state, error type, and parsing primitives (src/de.rs) -/

/-- `error.rs` `Error`. -/
inductive DeErr where
  | message (msg : Str)
  | eof
  | expectedBoolean
  | expectedInteger
  | expectedString
  | expectedArraySeperator
  | expectedValueSeperator
  | expectedNewline
  | expectedStructName
  | wrongLevel
deriving DecidableEq, Repr

/-- `de.rs` `Deserializer { input: &str, keys: Vec<&str> }`. -/
structure De where
  input : Str
  keys : List Str
deriving DecidableEq, Repr

/-- `fn peek_char`. -/
def peekChar (d : De) : Except DeErr Char :=
  match d.input with
  | [] => .error .eof
  | c :: _ => .ok c

/-- `fn next_char`. -/
def nextChar (d : De) : Except DeErr (Char × De) :=
  match d.input with
  | [] => .error .eof
  | c :: cs => .ok (c, { d with input := cs })

/-- `fn parse_bool` (de.rs lines 59-67), translated exactly: when the first
consumed character is not `'1'`, a second `next_char()` call consumes another
character and compares that one against `'0'`. -/
def parseBool (d : De) : Except DeErr (Bool × De) :=
  match d.input with
  | [] => .error .eof
  | c :: cs =>
    if c = '1' then .ok (true, { d with input := cs })
    else
      match cs with
      | [] => .error .eof
      | c2 :: cs2 =>
        if c2 = '0' then .ok (false, { d with input := cs2 })
        else .error .expectedBoolean

/-- The digit-accumulation loop of `parse_unsigned`; the `*=` and `+=` on a
`w`-bit unsigned integer wrap, hence the modulus `m = 2^w`. -/
def puLoop (m : Nat) : Nat → Str → Nat × Str
  | acc, [] => (acc, [])
  | acc, c :: cs =>
    if isDigCh c then puLoop m ((acc * 10 % m + digVal c) % m) cs
    else (acc, c :: cs)

/-- `fn parse_unsigned::<T>` at a `w`-bit unsigned type with `m = 2^w`. -/
def parseUnsigned (m : Nat) (d : De) : Except DeErr (Nat × De) :=
  match d.input with
  | [] => .error .eof
  | c :: cs =>
    if isDigCh c then
      let r := puLoop m (digVal c) cs
      .ok (r.1, { d with input := r.2 })
    else .error .expectedInteger

/-- `fn parse_string` (de.rs lines 155-182).  On a line starting with dots the
dots are consumed; the key before `=` is returned (input left at the `=`), or
— if the line holds no `=` — the whole line is returned without advancing
past it (a nested-record or sequence header).  Otherwise the text up to the
newline (or end of input) is returned and consumed. -/
def parseString (d : De) : Except DeErr (Str × De) :=
  if d.input.head? = some '.' then
    let s := trimMatches '.' d.input
    let line := s.takeWhile (· ≠ '\n')
    match findCharIdx '=' line with
    | some len => .ok (s.take len, { d with input := s.drop len })
    | none => .ok (line, { d with input := s })
  else
    match findCharIdx '\n' d.input with
    | some len => .ok (d.input.take len, { d with input := d.input.drop len })
    | none =>
      if d.input ≠ [] then .ok (d.input, { d with input := [] })
      else .error .expectedString

/-- `fn deserialize_struct` (de.rs lines 440-465), the part before
`deserialize_map` is invoked: skip one leading `'\n'`, require the input
(after trimming all leading whitespace) to start with the expected name,
consume through the first newline, and push the name on the key stack unless
it is already on top. -/
def structOpen (name : Str) (d : De) : Except DeErr De :=
  let d1 := if d.input.head? = some '\n' then { d with input := d.input.tail } else d
  if ¬ startsWith (trimStart d1.input) name then .error .expectedStructName
  else
    match findCharIdx '\n' d1.input with
    | some len =>
      let keys' := if d1.keys.getLast? = some name then d1.keys else d1.keys ++ [name]
      .ok { input := d1.input.drop (len + 1), keys := keys' }
    | none => .error .expectedNewline

/-- `MapAccess::next_key_seed` (de.rs lines 607-644): end of the map at end of
input, at a blank remainder (which is then consumed), or when the next
non-blank line's dot-count is below the open-key-stack depth; otherwise a
newline separator is required before every entry except the first, leading
whitespace is skipped, and the key is read with `parse_string`. -/
def mapNextKey (first : Bool) (d : De) : Except DeErr (Option Str × De) :=
  if d.input = [] then .ok (none, d)
  else
    let s := trimStart (trimMatches '\n' d.input)
    if s = [] then .ok (none, { d with input := s })
    else
      let level := (s.takeWhile (· == '.')).length
      if level < d.keys.length then .ok (none, d)
      else
        let step : Except DeErr De :=
          if first then .ok d
          else
            match nextChar d with
            | .error e => .error e
            | .ok (c, d') => if c ≠ '\n' then .error .expectedNewline else .ok d'
        match step with
        | .error e => .error e
        | .ok d' =>
          let d'' := { d' with input := trimStart d'.input }
          if d''.input = [] then .ok (none, d'')
          else
            match parseString d'' with
            | .error e => .error e
            | .ok (k, d3) => .ok (some k, d3)

/-- `MapAccess::next_value_seed` (de.rs lines 646-664): when the input starts
with `=` it is consumed and the value parser runs; otherwise the value parser
runs directly (a nested record or sequence). -/
def mapNextValue {α : Type} (p : De → Except DeErr (α × De)) (d : De) :
    Except DeErr (α × De) :=
  if d.input.head? = some '=' then p { d with input := d.input.tail }
  else p d

/-- `str.split_whitespace().next().unwrap_or("").split('=').next().unwrap_or("")`:
the first whitespace-separated token of a line, cut at the first `=`. -/
def lineKeyTok (s : Str) : Str :=
  ((trimStart s).takeWhile (fun c => ¬ isWsChar c)).takeWhile (· ≠ '=')

/-- Outcome of `SeqAccess::next_element_seed` before the element itself is
parsed: end of the sequence (state unchanged), an error, or the updated state
on which the element is deserialized. -/
inductive SeqStep where
  | stop : SeqStep
  | fail (e : DeErr) : SeqStep
  | go (d : De) : SeqStep
deriving DecidableEq, Repr

/-- `SeqAccess for NewlineSeparated::next_element_seed` (de.rs lines 572-599),
the boundary decision: end at end of input; error `WrongLevel` when a
non-first block's dot-count is not below the stack depth; end (leaving the
input unconsumed) when a non-first block's leading token differs from the tag
on top of the stack; otherwise consume up to the block's tag and parse an
element there. -/
def seqNextRaw (first : Bool) (d : De) : SeqStep :=
  if d.input = [] then .stop
  else
    let s := trimStart (trimMatches '\n' d.input)
    let level := (s.takeWhile (· == '.')).length
    if ¬ first ∧ level ≥ d.keys.length then .fail .wrongLevel
    else
      let s2 := trimMatches '.' s
      let key := lineKeyTok s2
      if first then .go { d with input := trimStart s2 }
      else
        match d.keys.getLast? with
        | none => .fail (.message (strOf "keys.last() unwrap on empty stack"))
        | some last => if key ≠ last then .stop else .go { d with input := trimStart s2 }

/-- `SeqAccess for SpaceSeparated::next_element_seed` (de.rs lines 529-547):
end at end of input or before a newline; a space separator is required (and
consumed) before every element except the first; then the element parser
runs. -/
def spaceSeqNext {α : Type} (first : Bool) (p : De → Except DeErr (α × De))
    (d : De) : Except DeErr (Option (α × De)) :=
  match d.input with
  | [] => .ok none
  | c :: cs =>
    if c = '\n' then .ok none
    else
      let step : Except DeErr De :=
        if first then .ok d
        else if c = ' ' then .ok { d with input := cs }
        else .error .expectedArraySeperator
      match step with
      | .error e => .error e
      | .ok d' =>
        match p d' with
        | .error e => .error e
        | .ok x => .ok (some x)

/-- `fn deserialize_tuple` prologue: `self.input = self.input.trim_start()`. -/
def tupleTrim (d : De) : De := { d with input := trimStart d.input }

/-! ## Framework drivers

The serde traversal framework is external to this repository (spec §2, §6);
the spec fixes its interface: a fixed-length tuple `Deserialize` requests
exactly its schema-known number of elements and treats a missing element as a
length error; a struct `Deserialize` opens the record, loops over keys,
reads each known field's value, rejects unknown and duplicate fields, and at
the end fills absent optional fields with their configured default and
rejects absent required fields.  The drivers below model that protocol for
the concrete record shapes used by the claims. -/

/-- Modelled from the spec (§6): the framework's fixed-length tuple visitor
over `u8` elements; it calls `next_element` exactly `L` times and errors when
an element is missing. -/
def deTupleLoop : Nat → Bool → De → Except DeErr (List Nat × De)
  | 0, _, d => .ok ([], d)
  | n + 1, first, d =>
    match spaceSeqNext first (parseUnsigned 256) d with
    | .error e => .error e
    | .ok none => .error (.message (strOf "invalid length"))
    | .ok (some (v, d')) =>
      match deTupleLoop n false d' with
      | .error e => .error e
      | .ok (vs, d'') => .ok (v :: vs, d'')

/-- `deserialize_tuple` of a schema-known length `L` over `u8` scalars:
the deserializer trims leading whitespace and hands the visitor the
space-separated element access. -/
def deserializeTupleU8 (L : Nat) (d : De) : Except DeErr (List Nat × De) :=
  deTupleLoop L true (tupleTrim d)

/-- Modelled from the spec (§6): the framework's field loop for the record
`funktionen { nr: u8 }`. -/
def funkFieldLoop : Nat → Bool → Option Nat → De → Except DeErr (Option Nat × De)
  | 0, _, _, _ => .error (.message (strOf "out of fuel"))
  | fuel + 1, first, acc, d =>
    match mapNextKey first d with
    | .error e => .error e
    | .ok (none, d') => .ok (acc, d')
    | .ok (some k, d') =>
      if k = strOf "nr" then
        if acc.isSome then .error (.message (strOf "duplicate field nr"))
        else
          match mapNextValue (parseUnsigned 256) d' with
          | .error e => .error e
          | .ok (v, d'') => funkFieldLoop fuel false (some v) d''
      else .error (.message (strOf "unknown field"))

/-- Deserializing one `funktionen { nr: u8 }` record: `deserialize_struct`
followed by the framework's field loop (three iterations suffice: the single
field, then an end/duplicate/unknown outcome). -/
def deFunk (d : De) : Except DeErr (Nat × De) :=
  match structOpen (strOf "funktionen") d with
  | .error e => .error e
  | .ok d1 =>
    match funkFieldLoop 3 true none d1 with
    | .error e => .error e
    | .ok (some v, d2) => .ok (v, d2)
    | .ok (none, _) => .error (.message (strOf "missing field nr"))

/-- Modelled from the spec (§6): the framework's `Vec` visitor collecting
sequence elements while `next_element` yields one. -/
def vecFunkLoop : Nat → Bool → List Nat → De → Except DeErr (List Nat × De)
  | 0, _, _, _ => .error (.message (strOf "out of fuel"))
  | fuel + 1, first, acc, d =>
    match seqNextRaw first d with
    | .stop => .ok (acc, d)
    | .fail e => .error e
    | .go d' =>
      match deFunk d' with
      | .error e => .error e
      | .ok (v, d'') => vecFunkLoop fuel false (acc ++ [v]) d''

/-- `deserialize_seq` for `Vec<funktionen>`: the visitor collects elements and
then the deserializer pops the key stack. -/
def deVecFunk (fuel : Nat) (d : De) : Except DeErr (List Nat × De) :=
  match vecFunkLoop fuel true [] d with
  | .error e => .error e
  | .ok (vs, d') => .ok (vs, { d' with keys := d'.keys.dropLast })

/-- Modelled from the spec (§6): the framework's field loop for the record
`b { v: bool }`. -/
def bFieldLoop : Nat → Bool → Option Bool → De → Except DeErr (Option Bool × De)
  | 0, _, _, _ => .error (.message (strOf "out of fuel"))
  | fuel + 1, first, acc, d =>
    match mapNextKey first d with
    | .error e => .error e
    | .ok (none, d') => .ok (acc, d')
    | .ok (some k, d') =>
      if k = strOf "v" then
        if acc.isSome then .error (.message (strOf "duplicate field v"))
        else
          match mapNextValue parseBool d' with
          | .error e => .error e
          | .ok (v, d'') => bFieldLoop fuel false (some v) d''
      else .error (.message (strOf "unknown field"))

/-- `from_str` for the record `b { v: bool }`. -/
def fromStrB (s : Str) : Except DeErr Bool :=
  match structOpen (strOf "b") { input := s, keys := [] } with
  | .error e => .error e
  | .ok d1 =>
    match bFieldLoop 3 true none d1 with
    | .error e => .error e
    | .ok (some v, _) => .ok v
    | .ok (none, _) => .error (.message (strOf "missing field v"))

/-- Modelled from the spec (§6): the framework's field loop for
`version { major: Option<u8> (default), minor: u8 }`; a missing `major`
is filled with its configured default `none`. -/
def versionFieldLoop : Nat → Bool → Option Nat → Option Nat → De →
    Except DeErr ((Option Nat × Option Nat) × De)
  | 0, _, _, _, _ => .error (.message (strOf "out of fuel"))
  | fuel + 1, first, major, minor, d =>
    match mapNextKey first d with
    | .error e => .error e
    | .ok (none, d') => .ok ((major, minor), d')
    | .ok (some k, d') =>
      if k = strOf "major" then
        match mapNextValue (parseUnsigned 256) d' with
        | .error e => .error e
        | .ok (v, d'') => versionFieldLoop fuel false (some v) minor d''
      else if k = strOf "minor" then
        match mapNextValue (parseUnsigned 256) d' with
        | .error e => .error e
        | .ok (v, d'') => versionFieldLoop fuel false major (some v) d''
      else .error (.message (strOf "unknown field"))

/-- `from_str` for `version { major: Option<u8>, minor: u8 }`: the optional
field defaults to `none` when absent, the required field must be present. -/
def fromStrVersion (s : Str) : Except DeErr (Option Nat × Nat) :=
  match structOpen (strOf "version") { input := s, keys := [] } with
  | .error e => .error e
  | .ok d1 =>
    match versionFieldLoop 4 true none none d1 with
    | .error e => .error e
    | .ok ((major, some minor), _) => .ok (major, minor)
    | .ok ((_, none), _) => .error (.message (strOf "missing field minor"))

/-- Modelled from the spec (§6): the framework's field loop for
`b16 { blocks: [u8; 15] }`. -/
def b16FieldLoop : Nat → Bool → Option (List Nat) → De →
    Except DeErr (Option (List Nat) × De)
  | 0, _, _, _ => .error (.message (strOf "out of fuel"))
  | fuel + 1, first, acc, d =>
    match mapNextKey first d with
    | .error e => .error e
    | .ok (none, d') => .ok (acc, d')
    | .ok (some k, d') =>
      if k = strOf "blocks" then
        if acc.isSome then .error (.message (strOf "duplicate field blocks"))
        else
          match mapNextValue (deserializeTupleU8 15) d' with
          | .error e => .error e
          | .ok (vs, d'') => b16FieldLoop fuel false (some vs) d''
      else .error (.message (strOf "unknown field"))

/-- `from_str` for `b16 { blocks: [u8; 15] }`. -/
def fromStrB16 (s : Str) : Except DeErr (List Nat) :=
  match structOpen (strOf "b16") { input := s, keys := [] } with
  | .error e => .error e
  | .ok d1 =>
    match b16FieldLoop 3 true none d1 with
    | .error e => .error e
    | .ok (some vs, _) => .ok vs
    | .ok (none, _) => .error (.message (strOf "missing field blocks"))

/-! ## Auxiliary definitions used by the claim statements -/

/-- Skipping one leading newline character (the first step of
`deserialize_struct`). -/
def skipOneNl (s : Str) : Str :=
  if s.head? = some '\n' then s.tail else s

/-- Decimal accumulation from a starting value (the exact arithmetic of the
`parse_unsigned` loop without wrapping). -/
def valFrom (a : Nat) (s : Str) : Nat :=
  s.foldl (fun acc c => acc * 10 + digVal c) a

/-- The numeric value of a digit string. -/
def digitsVal (s : Str) : Nat := valFrom 0 s

/-- A string that does not begin with a decimal digit (so the digit loop of
`parse_unsigned` stops in front of it). -/
def noDigHead (s : Str) : Bool :=
  match s.head? with
  | some c => !isDigCh c
  | none => true

/-- The tail of a space-joined rendering: a space before each element. -/
def spTail : List Str → Str
  | [] => []
  | r :: rs => ' ' :: r ++ spTail rs

/-- A tuple line of decimal tokens, as the encoder writes it. -/
def tupleLine (vs : List Nat) : Str := joinSp (vs.map natDecimal)

/-- The text of one non-first sequence element `funktionen { nr = v }` at
depth 1, as the encoder writes it. -/
def funkBlockRest (v : Nat) : Str := strOf "\n .funktionen\n ..nr=" ++ natDecimal v

/-- Concatenation of non-first sequence element blocks. -/
def funkBlocksRest : List Nat → Str
  | [] => []
  | v :: vs => funkBlockRest v ++ funkBlocksRest vs

/-- The decoder input at the start of `Vec<funktionen>` deserialization: the
field key's dots were already consumed by `parse_string`, so the first block
starts at its tag; the later blocks follow with their depth markers, and
`tail` is whatever follows the last block. -/
def funkSeqInput (v : Nat) (vs : List Nat) (tail : Str) : Str :=
  strOf "funktionen\n ..nr=" ++ natDecimal v ++ funkBlocksRest vs ++ tail

/-- The shapes of text allowed after the last block of a `funktionen`
sequence: end of input, or a newline followed by a line whose depth marker is
a single dot and whose leading token differs from `funktionen` (a
different-tag block at the same or shallower depth for the parent record). -/
def seqTailOk : Str → Bool
  | [] => true
  | c1 :: c2 :: c3 :: w =>
    c1 = '\n' && c2 = ' ' && c3 = '.' &&
    w.head? ≠ some '.' && lineKeyTok w ≠ strOf "funktionen"
  | _ => false

/-- The text that may follow the `nr` value inside one `funktionen` record:
end of input, or a newline-led continuation whose first non-blank line sits
at fewer than two dots (so the record's key loop stops without consuming
it). -/
def elemRestOk (rest : Str) : Bool :=
  match rest with
  | [] => true
  | c :: cs =>
    c = '\n' &&
    (let s := trimStart (trimMatches '\n' (c :: cs))
     !s.isEmpty && decide ((s.takeWhile (· == '.')).length < 2))

/-! ## Toolbox lemmas about the string primitives -/

theorem endsWith_iff_getLast {s : Str} {c : Char} :
    endsWith s [c] = true ↔ s.getLast? = some c := by
  unfold endsWith
  rw [List.isSuffixOf_iff_suffix]
  constructor
  · rintro ⟨t, rfl⟩
    exact List.getLast?_concat t
  · intro h
    have hne : s ≠ [] := by rintro rfl; simp at h
    have hlast : s.getLast hne = c := by
      have := List.getLast?_eq_getLast s hne
      rw [this] at h
      exact Option.some_injective _ h
    refine ⟨s.dropLast, ?_⟩
    rw [← hlast]
    exact List.dropLast_append_getLast hne

theorem endsWith_append_self (a t : Str) : endsWith (a ++ t) t = true := by
  unfold endsWith
  rw [List.isSuffixOf_iff_suffix]
  exact List.suffix_append a t

theorem endsWith_false_of_getLast_ne {s t : Str} (ht : t ≠ [])
    (h : s.getLast? ≠ t.getLast?) : endsWith s t = false := by
  cases hb : endsWith s t with
  | false => rfl
  | true =>
    exfalso
    unfold endsWith at hb
    rw [List.isSuffixOf_iff_suffix] at hb
    obtain ⟨u, rfl⟩ := hb
    exact h (List.getLast?_append_of_ne_nil u ht)

theorem startsWith_of_append (p r : Str) : startsWith (p ++ r) p = true := by
  unfold startsWith
  rw [List.isPrefixOf_iff_prefix]
  exact List.prefix_append p r

theorem dropWhile_append_stop {p : Char → Bool} {l : Str} (r : Str)
    (h : l.dropWhile p ≠ []) :
    (l ++ r).dropWhile p = l.dropWhile p ++ r := by
  rw [List.dropWhile_append]
  simp [List.isEmpty_iff, h]

theorem dropWhile_append_nil {p : Char → Bool} {l : Str} (r : Str)
    (h : l.dropWhile p = []) :
    (l ++ r).dropWhile p = r.dropWhile p := by
  rw [List.dropWhile_append]
  simp [List.isEmpty_iff, h]

theorem takeWhile_append_stop {p : Char → Bool} {l : Str} (r : Str)
    (h : (l.takeWhile p).length ≠ l.length) :
    (l ++ r).takeWhile p = l.takeWhile p := by
  rw [List.takeWhile_append]
  simp [h]

theorem findCharIdx_append_some {t : Char} {l : Str} (r : Str) {i : Nat}
    (h : findCharIdx t l = some i) :
    findCharIdx t (l ++ r) = some i := by
  induction l generalizing i with
  | nil => simp [findCharIdx] at h
  | cons c cs ih =>
    show findCharIdx t (c :: (cs ++ r)) = some i
    simp only [findCharIdx] at h ⊢
    by_cases hc : c = t
    · simpa [hc] using h
    · simp only [hc, if_false] at h ⊢
      cases hj : findCharIdx t cs with
      | none => rw [hj] at h; simp at h
      | some j =>
        rw [hj] at h
        rw [ih hj]
        simpa using h

/-! ## Decimal rendering and the digit-parsing loop -/

theorem natDecimalGo_eq (n : Nat) (acc : Str) :
    natDecimalGo n acc
      = if n = 0 then acc else natDecimalGo (n / 10) (digCh (n % 10) :: acc) := by
  by_cases h : n = 0
  · rw [natDecimalGo]; simp [h]
  · rw [natDecimalGo]; simp [h]

theorem natDecimalAux_eq_go : ∀ (fuel n : Nat) (acc : Str), n ≤ fuel →
    natDecimalAux fuel n acc = natDecimalGo n acc := by
  intro fuel
  induction fuel with
  | zero =>
    intro n acc h
    have hn : n = 0 := by omega
    subst hn
    rw [natDecimalGo_eq]
    simp [natDecimalAux]
  | succ fuel ih =>
    intro n acc h
    rw [natDecimalGo_eq]
    show (if n = 0 then acc else natDecimalAux fuel (n / 10) (digCh (n % 10) :: acc)) = _
    by_cases hn : n = 0
    · simp [hn]
    · simp only [hn, if_false]
      exact ih (n / 10) _ (by omega)

theorem natDecimal_eq_go (n : Nat) :
    natDecimal n = if n = 0 then ['0'] else natDecimalGo n [] := by
  unfold natDecimal
  by_cases h : n = 0
  · simp [h]
  · simp only [h, if_false]
    exact natDecimalAux_eq_go n n [] (Nat.le_refl n)

theorem natDecimalGo_shift : ∀ (n : Nat) (acc : Str),
    natDecimalGo n acc = natDecimalGo n [] ++ acc := by
  intro n
  induction n using Nat.strong_induction_on with
  | _ n ih =>
    intro acc
    by_cases h : n = 0
    · subst h; simp [natDecimalGo_eq]
    · rw [natDecimalGo_eq n acc, natDecimalGo_eq n []]
      simp only [h, if_false]
      have hlt : n / 10 < n := Nat.div_lt_self (Nat.pos_of_ne_zero h) (by omega)
      rw [ih _ hlt (digCh (n % 10) :: acc), ih _ hlt [digCh (n % 10)]]
      simp

theorem isDigCh_digCh {d : Nat} (h : d < 10) : isDigCh (digCh d) = true := by
  interval_cases d <;> decide

theorem digVal_digCh {d : Nat} (h : d < 10) : digVal (digCh d) = d := by
  interval_cases d <;> decide

theorem natDecimalGo_all_dig : ∀ (n : Nat),
    (natDecimalGo n []).all isDigCh = true := by
  intro n
  induction n using Nat.strong_induction_on with
  | _ n ih =>
    by_cases h : n = 0
    · subst h; rw [natDecimalGo_eq]; simp
    · rw [natDecimalGo_eq]
      simp only [h, if_false]
      rw [natDecimalGo_shift]
      have hlt : n / 10 < n := Nat.div_lt_self (Nat.pos_of_ne_zero h) (by omega)
      simp [List.all_append, ih _ hlt, isDigCh_digCh (Nat.mod_lt n (by omega))]

theorem natDecimal_all_dig (n : Nat) : (natDecimal n).all isDigCh = true := by
  rw [natDecimal_eq_go]
  by_cases h : n = 0
  · simp [h]; decide
  · simp [h, natDecimalGo_all_dig]

theorem natDecimalGo_ne_nil {n : Nat} (h : n ≠ 0) : natDecimalGo n [] ≠ [] := by
  rw [natDecimalGo_eq]
  simp only [h, if_false]
  rw [natDecimalGo_shift]
  simp

theorem natDecimal_ne_nil (n : Nat) : natDecimal n ≠ [] := by
  rw [natDecimal_eq_go]
  by_cases h : n = 0
  · simp [h]
  · simp [h, natDecimalGo_ne_nil h]

theorem valFrom_append (a : Nat) (s t : Str) :
    valFrom a (s ++ t) = valFrom (valFrom a s) t := by
  unfold valFrom
  exact List.foldl_append _ _ _ _

theorem digitsVal_natDecimalGo : ∀ (n : Nat), n ≠ 0 →
    digitsVal (natDecimalGo n []) = n := by
  intro n
  induction n using Nat.strong_induction_on with
  | _ n ih =>
    intro h
    rw [natDecimalGo_eq]
    simp only [h, if_false]
    rw [natDecimalGo_shift]
    by_cases h10 : n / 10 = 0
    · rw [h10, natDecimalGo_eq]
      have hn : n < 10 := by omega
      have hmod : n % 10 = n := by omega
      simp [digitsVal, valFrom, hmod, digVal_digCh hn]
    · have hlt : n / 10 < n := Nat.div_lt_self (Nat.pos_of_ne_zero h) (by omega)
      have hv := ih _ hlt h10
      unfold digitsVal at hv ⊢
      rw [valFrom_append, hv]
      have hm10 : n % 10 < 10 := Nat.mod_lt n (by omega)
      simp [valFrom, digVal_digCh hm10]
      omega

theorem digitsVal_natDecimal (n : Nat) : digitsVal (natDecimal n) = n := by
  rw [natDecimal_eq_go]
  by_cases h : n = 0
  · simp [h]; decide
  · simp [h, digitsVal_natDecimalGo n h]

theorem valFrom_mod (m : Nat) : ∀ (ds : Str) (a : Nat),
    valFrom (a % m) ds % m = valFrom a ds % m := by
  intro ds
  induction ds with
  | nil => intro a; simp [valFrom]
  | cons c cs ih =>
    intro a
    show valFrom (a % m * 10 + digVal c) cs % m = valFrom (a * 10 + digVal c) cs % m
    have key : (a % m * 10 + digVal c) % m = (a * 10 + digVal c) % m :=
      Nat.ModEq.add_right _ (Nat.ModEq.mul_right _ (Nat.mod_modEq a m))
    rw [← ih (a % m * 10 + digVal c), key, ih (a * 10 + digVal c)]

theorem puLoop_spec (m : Nat) : ∀ (ds rest : Str) (acc : Nat),
    ds.all isDigCh = true → noDigHead rest = true → acc < m →
    puLoop m acc (ds ++ rest) = (valFrom acc ds % m, rest) := by
  intro ds
  induction ds with
  | nil =>
    intro rest acc _ hrest hacc
    have hval : valFrom acc ([] : Str) % m = acc := by
      simp [valFrom, Nat.mod_eq_of_lt hacc]
    cases rest with
    | nil => simp [puLoop, hval]
    | cons c cs =>
      have hc : isDigCh c = false := by
        simpa [noDigHead] using hrest
      simp [puLoop, hc, hval]
  | cons c cs ih =>
    intro rest acc hall hrest hacc
    simp only [List.all_cons, Bool.and_eq_true] at hall
    show puLoop m acc (c :: (cs ++ rest)) = _
    rw [puLoop]
    simp only [hall.1, if_true]
    have hlt : (acc * 10 % m + digVal c) % m < m := Nat.mod_lt _ (by omega)
    rw [ih rest _ hall.2 hrest hlt]
    have key : (acc * 10 % m + digVal c) % m = (acc * 10 + digVal c) % m :=
      Nat.ModEq.add_right _ (Nat.mod_modEq (acc * 10) m)
    have hv : valFrom ((acc * 10 % m + digVal c) % m) cs % m
        = valFrom (acc * 10 + digVal c) cs % m := by
      rw [key]; exact valFrom_mod m cs (acc * 10 + digVal c)
    rw [hv]
    rfl

theorem digVal_lt_ten {c : Char} (h : isDigCh c = true) : digVal c < 10 := by
  unfold isDigCh at h
  simp only [Bool.and_eq_true, decide_eq_true_eq] at h
  unfold digVal
  omega

theorem digitsVal_cons (c : Char) (ds : Str) :
    digitsVal (c :: ds) = valFrom (digVal c) ds := by
  simp [digitsVal, valFrom]

theorem parseUnsigned_decimal (m v : Nat) (rest : Str) (K : List Str)
    (hm : 10 ≤ m) (hrest : noDigHead rest = true) :
    parseUnsigned m { input := natDecimal v ++ rest, keys := K }
      = .ok (v % m, { input := rest, keys := K }) := by
  obtain ⟨c, ds, hcd⟩ : ∃ c ds, natDecimal v = c :: ds := by
    cases h : natDecimal v with
    | nil => exact absurd h (natDecimal_ne_nil v)
    | cons c ds => exact ⟨c, ds, rfl⟩
  have hall : (c :: ds).all isDigCh = true := hcd ▸ natDecimal_all_dig v
  simp only [List.all_cons, Bool.and_eq_true] at hall
  have hdig : digVal c < m := lt_of_lt_of_le (digVal_lt_ten hall.1) hm
  have hval : valFrom (digVal c) ds = v := by
    rw [← digitsVal_cons, ← hcd, digitsVal_natDecimal]
  rw [hcd]
  show parseUnsigned m { input := c :: (ds ++ rest), keys := K } = _
  unfold parseUnsigned
  simp only [hall.1, if_true]
  rw [puLoop_spec m ds rest (digVal c) hall.2 hrest hdig, hval]

/-! ## Structural facts about the serializer used by several claims -/

theorem serializeStructOpen_level (name : Str) (st : Serializer) :
    (serializeStructOpen name st).level = st.level ∨
    (serializeStructOpen name st).level = st.level + 1 := by
  unfold serializeStructOpen
  dsimp only
  split_ifs <;> simp [Serializer.push]

/-! ## Claim theorems -/

/-- **C5** (code_bug evidence).  The claim: decoding a Boolean consumes
exactly one character, `'1'` yields true, `'0'` yields false, any other
leading character fails with the boolean error.  The code (`parse_bool`,
de.rs 59-67) consumes a *second* character whenever the first is not `'1'`:
input `"0"` gives an end-of-input error instead of `false`; `"00"` gives
`false` after consuming two characters; `"01"` errors; and `"x0"` yields
`false` although its leading character is `'x'`.  Only the `'1'` case behaves
as claimed. -/
theorem claim_C5_parse_bool :
    parseBool { input := strOf "0", keys := [] } = .error .eof ∧
    parseBool { input := strOf "00", keys := [] }
      = .ok (false, { input := [], keys := [] }) ∧
    parseBool { input := strOf "01", keys := [] } = .error .expectedBoolean ∧
    parseBool { input := strOf "x0", keys := [] }
      = .ok (false, { input := [], keys := [] }) ∧
    parseBool { input := strOf "1x", keys := [] }
      = .ok (true, { input := strOf "x", keys := [] }) :=
  ⟨rfl, rfl, rfl, rfl, rfl⟩

/-- **C1** (code_bug evidence).  The record `b { v: bool }` with `v = false`
is schema-conforming and uses only supported scalar kinds; its encoding is
`"b\n .v=0"`; yet decoding that very text fails with an end-of-input error
(the `parse_bool` slip of C5), so `from_str(to_string(v)) = Ok(v)` does not
hold.  With `v = true` the round trip succeeds, isolating the failure to the
boolean `false` lexical form. -/
theorem claim_C1_round_trip_fails_on_false_bool :
    (serTop (strOf "b") [.scalarF (strOf "v") (.bVal false)]).output
      = strOf "b\n .v=0" ∧
    fromStrB (serTop (strOf "b") [.scalarF (strOf "v") (.bVal false)]).output
      = .error .eof ∧
    fromStrB (serTop (strOf "b") [.scalarF (strOf "v") (.bVal true)]).output
      = .ok true :=
  ⟨rfl, rfl, rfl⟩

/-- **C7** counterexample.  The claim says encoding a floating-point number or
a character fails with the unsupported-value-kind error and produces no
successful output; in the code `serialize_char 'a'` succeeds and appends
`"a"`, and `serialize_f64` succeeds and appends the float's rendering. -/
theorem claim_C7_counterexample :
    serializeChar 'a' Serializer.init = .ok { level := 0, output := strOf "a" } ∧
    serializeF64 (strOf "1.5") Serializer.init
      = .ok { level := 0, output := strOf "1.5" } :=
  ⟨rfl, rfl⟩

/-- **C7** amended.  Only unit values, unit structs, and enum variants
(unit or newtype) make the encoder fail with the unsupported-type error;
floating-point numbers are encoded successfully as their decimal rendering
and characters as one-character strings. -/
theorem claim_C7_amended (st : Serializer) (name variant rendered : Str) (c : Char) :
    serializeUnit st = .error (.unsupportedType .unit) ∧
    serializeUnitStruct name st = .error (.unsupportedType .unitStruct) ∧
    serializeUnitVariant name variant st = .error (.unsupportedType .unitVariant) ∧
    serializeNewtypeVariant name variant st = .error (.unsupportedType .newtypeVariant) ∧
    serializeChar c st = .ok (st.push [c]) ∧
    serializeF64 rendered st = .ok (st.push rendered) :=
  ⟨rfl, rfl, rfl, rfl, rfl, rfl⟩

/-- **C10** confirmed.  `SerializeStruct::end` decrements the level with
saturating subtraction (Rust `usize::saturating_sub(1)`, modelled by `Nat`
subtraction which is saturating by construction, so the counter never
underflows); closing at level 0 leaves the level at 0; and opening any
record at level 0 — in particular a bracket-delimited transparent root,
which does not increment the counter — and closing it again always returns
the level to 0. -/
theorem claim_C10_saturating_level (st : Serializer) (out name : Str) :
    (serializeStructEnd st).level = st.level - 1 ∧
    (serializeStructEnd { level := 0, output := out }).level = 0 ∧
    (serializeStructEnd (serializeStructOpen name { level := 0, output := out })).level
      = 0 := by
  refine ⟨rfl, rfl, ?_⟩
  rcases serializeStructOpen_level name { level := 0, output := out } with h | h <;>
    simp [serializeStructEnd, h]

/-- **C6** confirmed.  An absent optional field: `serialize_none` appends
nothing and leaves the depth counter unchanged; the framework additionally
skips the whole field (`skip_serializing_if`), so `serFields` of a list with
an absent field equals `serFields` without it; encoding
`version { major: absent, minor: 3 }` produces exactly the text without any
trace of `major`; and decoding that text yields the configured default
`none` for the missing optional field. -/
theorem claim_C6_absent_optional (st : Serializer) (k : Str) (rest : List Field) :
    serializeNone st = st ∧
    serFields (.absentF k :: rest) st = serFields rest st ∧
    (serTop (strOf "version")
        [.absentF (strOf "major"), .scalarF (strOf "minor") (.uVal 3)]).output
      = strOf "version\n .minor=3" ∧
    fromStrVersion (strOf "version\n .minor=3") = .ok (none, 3) :=
  ⟨rfl, rfl, rfl, rfl⟩

/-- **C8** counterexample.  The claim's "iff": after optionally skipping one
leading blank line, `deserialize_struct` fails with a tag mismatch if and
only if the remaining input does not start with the expected tag.  On input
`" version\n .minor=3"` (no leading blank line to skip) the remaining input
does **not** start with `"version"` — yet the code succeeds, because the tag
test first strips *all* leading whitespace. -/
theorem claim_C8_counterexample :
    startsWith (strOf " version\n .minor=3") (strOf "version") = false ∧
    structOpen (strOf "version") { input := strOf " version\n .minor=3", keys := [] }
      = .ok { input := strOf " .minor=3", keys := [strOf "version"] } :=
  ⟨rfl, rfl⟩

/-- **C9** counterexample.  The claim: every scalar of a tuple after the
first is preceded by exactly one space.  When a scalar's rendering ends with
`=`, the separator test `output.ends_with('=')` misfires and the following
scalar is written with **no** preceding space: the tuple
`("a=", "b")` in field context renders as `"a=b"` appended directly. -/
theorem claim_C9_counterexample :
    serTupleElems [.sVal (strOf "a="), .sVal (strOf "b")]
        { level := 1, output := strOf "t\n .f=" }
      = { level := 1, output := strOf "t\n .f=a=b" } :=
  rfl

/-- **C4** counterexample.  The claim: a line with more than `L` tokens makes
the decode return an error.  Decoding the 16-token line `"0 0 ... 0"` into a
15-length tuple *succeeds*, returning the first 15 scalars and leaving
`" 0"` unconsumed; embedded in a record (`b16 { blocks: [u8; 15] }`) the
whole decode also succeeds, the leftover token being skipped when the
enclosing map ends. -/
theorem claim_C4_counterexample :
    deserializeTupleU8 15
        { input := strOf "0 0 0 0 0 0 0 0 0 0 0 0 0 0 0 0", keys := [] }
      = .ok (List.replicate 15 0, { input := strOf " 0", keys := [] }) ∧
    fromStrB16 (strOf "b16\n .blocks=0 0 0 0 0 0 0 0 0 0 0 0 0 0 0 0")
      = .ok (List.replicate 15 0) :=
  ⟨rfl, rfl⟩

/-- **C2** counterexample.  The claim: a sequence of same-tag same-depth
blocks followed by a block at shallower depth decodes exactly the leading
blocks and leaves the shallower block unconsumed.  Here one depth-1
`funktionen` block is followed by a depth-0 block with the *same* tag; the
decoder compares only the tag, consumes the shallower block as a second
element, and returns two elements instead of one (`seqNextRaw` answers `go`,
not `stop`). -/
theorem claim_C2_counterexample :
    deVecFunk 4 { input := strOf "funktionen\n ..nr=1\nfunktionen\n ..nr=9",
                  keys := [strOf "lokomotive"] }
      = .ok ([1, 9], { input := [], keys := [strOf "lokomotive"] }) ∧
    seqNextRaw false { input := strOf "\nfunktionen\n ..nr=9",
                       keys := [strOf "lokomotive", strOf "funktionen"] }
      = .go { input := strOf "funktionen\n ..nr=9",
              keys := [strOf "lokomotive", strOf "funktionen"] } :=
  ⟨rfl, rfl⟩

/-- `deserialize_struct`'s header handling, written over `skipOneNl`. -/
theorem structOpen_eq (name : Str) (d : De) :
    structOpen name d =
      (if ¬ startsWith (trimStart (skipOneNl d.input)) name then
        .error .expectedStructName
      else
        match findCharIdx '\n' (skipOneNl d.input) with
        | some len =>
          .ok { input := (skipOneNl d.input).drop (len + 1),
                keys := if d.keys.getLast? = some name then d.keys
                        else d.keys ++ [name] }
        | none => .error .expectedNewline) := by
  unfold structOpen skipOneNl
  by_cases h : d.input.head? = some '\n' <;> simp [h]

/-- **C8** amended.  Opening a record with expected tag `name` first skips one
leading newline *character* (not a whole blank line); it fails with the
tag-mismatch error if and only if the remaining input **with all leading
whitespace removed** does not start with `name` (so input preceded by spaces
still opens, unlike the claim's plain starts-with test); when the tag check
passes but no newline remains, it fails with `ExpectedNewline` rather than
succeeding; on success it consumes through the first newline and pushes the
tag onto the open-tag stack unless the top of the stack already equals it. -/
theorem claim_C8_amended (name : Str) (d : De) :
    (structOpen name d = .error .expectedStructName ↔
      startsWith (trimStart (skipOneNl d.input)) name = false) ∧
    (∀ r, structOpen name d = .ok r →
      startsWith (trimStart (skipOneNl d.input)) name = true ∧
      r.keys = (if d.keys.getLast? = some name then d.keys
                else d.keys ++ [name]) ∧
      ∃ i, findCharIdx '\n' (skipOneNl d.input) = some i ∧
        r.input = (skipOneNl d.input).drop (i + 1)) ∧
    (startsWith (trimStart (skipOneNl d.input)) name = true →
      findCharIdx '\n' (skipOneNl d.input) = none →
      structOpen name d = .error .expectedNewline) := by
  rw [structOpen_eq]
  by_cases hs : startsWith (trimStart (skipOneNl d.input)) name
  · cases hf : findCharIdx '\n' (skipOneNl d.input) with
    | none =>
      refine ⟨?_, ?_, ?_⟩
      · simp [hs]
      · intro r hr; simp [hs, hf] at hr
      · intro _ _; simp [hs, hf]
    | some i =>
      refine ⟨?_, ?_, ?_⟩
      · simp [hs, hf]
      · intro r hr
        simp only [hs, not_true_eq_false, if_false, hf] at hr
        cases hr
        exact ⟨hs, rfl, i, rfl, rfl⟩
      · intro _ hnone; simp at hnone
  · have hs' : startsWith (trimStart (skipOneNl d.input)) name = false :=
      Bool.eq_false_iff.mpr hs
    refine ⟨?_, ?_, ?_⟩
    · simp [hs, hs']
    · intro r hr; simp [hs] at hr
    · intro h; rw [h] at hs'; cases hs'

/-- Witness for C8: on `" version"` (tag present after whitespace, no
newline) the open fails with `ExpectedNewline`, as the amended claim's third
clause predicts. -/
theorem claim_C8_amended_witness :
    structOpen (strOf "version") { input := strOf " version", keys := [] }
      = .error .expectedNewline :=
  (claim_C8_amended (strOf "version")
      { input := strOf " version", keys := [] }).2.2 (by decide) (by decide)

/-! ### C9: tuple element separators -/

theorem serScalar_push (sc : Scalar) (st : Serializer) :
    serScalar sc st = st.push sc.render := by
  cases sc <;> rfl

theorem endsWith_false_iff_getLast {s : Str} {c : Char} :
    endsWith s [c] = false ↔ s.getLast? ≠ some c := by
  rw [Bool.eq_false_iff]
  exact not_congr endsWith_iff_getLast

theorem joinSp_cons (r : Str) (rs : List Str) :
    joinSp (r :: rs) = r ++ spTail rs := by
  induction rs generalizing r with
  | nil => simp [joinSp, spTail]
  | cons s ss ih =>
    show r ++ ' ' :: joinSp (s :: ss) = r ++ spTail (s :: ss)
    rw [ih s]
    simp [spTail]

/-- Elements after the first: each one is preceded by exactly one space,
provided the output never ends with `=` at a separator decision. -/
theorem serTupleElems_rest (es : List Scalar) : ∀ (st : Serializer),
    st.output.getLast? ≠ some '=' →
    (∀ e ∈ es, e.render ≠ [] ∧ e.render.getLast? ≠ some '=') →
    serTupleElems es st
      = { level := st.level, output := st.output ++ spTail (es.map Scalar.render) } := by
  induction es with
  | nil =>
    intro st _ _
    simp [serTupleElems, spTail]
  | cons e es ih =>
    intro st hlast hes
    have hsep : endsWith st.output ['='] = false := endsWith_false_iff_getLast.mpr hlast
    show serTupleElems es (serScalar e (serTupleElemStart st)) = _
    rw [serTupleElemStart]
    simp only [hsep, Bool.false_eq_true, not_false_eq_true, if_true]
    rw [serScalar_push]
    have he := hes e (List.mem_cons_self e es)
    have hnew : ((st.push [' ']).push e.render).output.getLast? ≠ some '=' := by
      simp only [Serializer.push]
      rw [List.append_assoc,
        List.getLast?_append_of_ne_nil _ (show [' '] ++ e.render ≠ [] by simp),
        List.getLast?_append_of_ne_nil _ he.1]
      exact he.2
    rw [ih _ hnew (fun x hx => hes x (List.mem_cons_of_mem e hx))]
    simp [Serializer.push, spTail]

/-- In field context (output ending with `=`) a tuple of scalars with
nonempty renderings not ending in `=` appends exactly the space-joined
renderings.  Shared by the C9 claim and the C3 refinement. -/
theorem serTupleElems_ctx (es : List Scalar) (st : Serializer)
    (hctx : endsWith st.output ['='] = true)
    (hes : ∀ e ∈ es, e.render ≠ [] ∧ e.render.getLast? ≠ some '=') :
    serTupleElems es st
      = { level := st.level,
          output := st.output ++ joinSp (es.map Scalar.render) } := by
  cases es with
  | nil => simp [serTupleElems, joinSp]
  | cons e es =>
    show serTupleElems es (serScalar e (serTupleElemStart st)) = _
    rw [serTupleElemStart]
    simp only [hctx, not_true_eq_false, if_false]
    rw [serScalar_push]
    have he := hes e (List.mem_cons_self e es)
    have hnew : (st.push e.render).output.getLast? ≠ some '=' := by
      simp only [Serializer.push]
      rw [List.getLast?_append_of_ne_nil _ he.1]
      exact he.2
    rw [serTupleElems_rest es _ hnew (fun x hx => hes x (List.mem_cons_of_mem e hx))]
    simp [Serializer.push, List.map_cons, joinSp_cons]

/-- **C9** amended.  In field context (output ending with `=`), a tuple of
scalars whose renderings are nonempty and do not end with `=` is written as
the space-joined renderings: the first scalar is preceded by no space, every
later scalar by exactly one space, and nothing follows the last scalar.  (A
rendering ending in `=` — only possible for a raw-string scalar — defeats
the separator test, per the counterexample.) -/
theorem claim_C9_amended (es : List Scalar) (st : Serializer)
    (hctx : endsWith st.output ['='] = true)
    (hes : ∀ e ∈ es, e.render ≠ [] ∧ e.render.getLast? ≠ some '=') :
    serTupleElems es st
      = { level := st.level,
          output := st.output ++ joinSp (es.map Scalar.render) } :=
  serTupleElems_ctx es st hctx hes

/-- Witness for C9's amended claim at the concrete tuple `(1, 2)` written
after `"t\n .f="`. -/
theorem claim_C9_amended_witness :
    serTupleElems [.uVal 1, .uVal 2] { level := 1, output := strOf "t\n .f=" }
      = { level := 1,
          output := strOf "t\n .f="
            ++ joinSp ([Scalar.uVal 1, Scalar.uVal 2].map Scalar.render) } :=
  claim_C9_amended [.uVal 1, .uVal 2] { level := 1, output := strOf "t\n .f=" }
    (by decide) (by decide)

/-! ### C4: fixed-length tuple decoding -/

theorem not_ws_of_dig {c : Char} (h : isDigCh c = true) : isWsChar c = false := by
  unfold isDigCh at h
  simp only [Bool.and_eq_true, decide_eq_true_eq] at h
  cases hw : isWsChar c with
  | false => rfl
  | true =>
    exfalso
    unfold isWsChar at hw
    simp only [Bool.or_eq_true, beq_iff_eq, Bool.and_eq_true, decide_eq_true_eq] at hw
    omega

theorem ne_nl_of_dig {c : Char} (h : isDigCh c = true) : c ≠ '\n' := by
  intro hc
  subst hc
  simp [isDigCh] at h

theorem natDecimal_head_dig (v : Nat) :
    ∃ c ds, natDecimal v = c :: ds ∧ isDigCh c = true := by
  cases hcd : natDecimal v with
  | nil => exact absurd hcd (natDecimal_ne_nil v)
  | cons c ds =>
    have hall : (c :: ds).all isDigCh = true := hcd ▸ natDecimal_all_dig v
    simp only [List.all_cons, Bool.and_eq_true] at hall
    exact ⟨c, ds, rfl, hall.1⟩

theorem trimStart_dig_append {v : Nat} (X : Str) :
    trimStart (natDecimal v ++ X) = natDecimal v ++ X := by
  obtain ⟨c, ds, hcd, hc⟩ := natDecimal_head_dig v
  rw [hcd]
  show trimStart (c :: (ds ++ X)) = c :: (ds ++ X)
  unfold trimStart
  rw [List.dropWhile_cons, not_ws_of_dig hc]
  simp

theorem tupleLine_cons_cons (v v' : Nat) (vs : List Nat) :
    tupleLine (v :: v' :: vs) = natDecimal v ++ ' ' :: tupleLine (v' :: vs) := rfl

theorem tupleLine_append (vsL vsR : List Nat) (hL : vsL ≠ []) (hR : vsR ≠ []) :
    tupleLine (vsL ++ vsR) = tupleLine vsL ++ ' ' :: tupleLine vsR := by
  induction vsL with
  | nil => exact absurd rfl hL
  | cons v vs ih =>
    cases vs with
    | nil =>
      cases vsR with
      | nil => exact absurd rfl hR
      | cons r rs => rfl
    | cons v' vs' =>
      have := ih (by simp)
      show tupleLine (v :: ((v' :: vs') ++ vsR)) = _
      rw [show (v' :: vs') ++ vsR = v' :: (vs' ++ vsR) from rfl]
      rw [tupleLine_cons_cons, tupleLine_cons_cons]
      rw [show v' :: (vs' ++ vsR) = (v' :: vs') ++ vsR from rfl, this]
      simp

theorem spaceSeqNext_first {α : Type} (p : De → Except DeErr (α × De)) (d : De)
    (c : Char) (cs : Str) (hin : d.input = c :: cs) (hnl : c ≠ '\n') :
    spaceSeqNext true p d = (p d).map some := by
  unfold spaceSeqNext
  rw [hin]
  simp only [hnl, if_false]
  cases hp : p d <;> simp [hp, Except.map]

theorem spaceSeqNext_space {α : Type} (p : De → Except DeErr (α × De)) (d : De)
    (rest : Str) (hin : d.input = ' ' :: rest) :
    spaceSeqNext false p d = (p { d with input := rest }).map some := by
  unfold spaceSeqNext
  rw [hin]
  cases hp : p { d with input := rest } <;> simp [hp, Except.map]

/-- One step of the tuple element loop over a decimal token. -/
theorem tupleStep (v : Nat) (first : Bool) (X : Str) (K : List Str)
    (hX : noDigHead X = true) :
    spaceSeqNext first (parseUnsigned 256)
        { input := (if first then [] else [' ']) ++ (natDecimal v ++ X), keys := K }
      = .ok (some (v % 256, { input := X, keys := K })) := by
  obtain ⟨c, ds, hcd, hc⟩ := natDecimal_head_dig v
  have h1 : spaceSeqNext first (parseUnsigned 256)
        { input := (if first then [] else [' ']) ++ (natDecimal v ++ X), keys := K }
      = (parseUnsigned 256 { input := natDecimal v ++ X, keys := K }).map some := by
    cases first with
    | true =>
      refine spaceSeqNext_first _ _ c (ds ++ X) ?_ (ne_nl_of_dig hc)
      simp [hcd]
    | false =>
      exact spaceSeqNext_space _ _ (natDecimal v ++ X) rfl
  rw [h1, parseUnsigned_decimal 256 v X K (by omega) hX]
  rfl

theorem deTupleLoop_exact : ∀ (vs : List Nat) (first : Bool) (tail : Str)
    (K : List Str), vs ≠ [] → noDigHead tail = true →
    deTupleLoop vs.length first
        { input := (if first then [] else [' ']) ++ (tupleLine vs ++ tail), keys := K }
      = .ok (vs.map (· % 256), { input := tail, keys := K }) := by
  intro vs
  induction vs with
  | nil => intro _ _ _ h _; exact absurd rfl h
  | cons v vs ih =>
    intro first tail K _ htail
    cases vs with
    | nil =>
      show deTupleLoop 1 first _ = _
      unfold deTupleLoop
      rw [show tupleLine [v] = natDecimal v from rfl]
      rw [tupleStep v first tail K htail]
      rfl
    | cons v' vs' =>
      show deTupleLoop ((v' :: vs').length + 1) first _ = _
      unfold deTupleLoop
      rw [tupleLine_cons_cons]
      simp only [List.append_assoc, List.cons_append]
      rw [tupleStep v first (' ' :: (tupleLine (v' :: vs') ++ tail)) K rfl]
      dsimp only
      have hrec := ih false tail K (by simp) htail
      simp only [Bool.false_eq_true, if_false, List.append_assoc, List.cons_append,
        List.singleton_append, List.nil_append] at hrec
      rw [hrec]
      rfl

theorem deTupleLoop_short_zero (k : Nat) (tail : Str) (K : List Str)
    (h : tail = [] ∨ tail.head? = some '\n') :
    deTupleLoop (k + 1) false { input := tail, keys := K }
      = .error (.message (strOf "invalid length")) := by
  rcases h with rfl | h
  · rfl
  · cases tail with
    | nil => rfl
    | cons c cs =>
      have : c = '\n' := by simpa using h
      subst this
      rfl

theorem noDigHead_of_stop {tail : Str} (h : tail = [] ∨ tail.head? = some '\n') :
    noDigHead tail = true := by
  rcases h with rfl | h
  · rfl
  · cases tail with
    | nil => rfl
    | cons c cs =>
      have : c = '\n' := by simpa using h
      subst this
      rfl

theorem deTupleLoop_short : ∀ (vs : List Nat) (k : Nat) (first : Bool)
    (tail : Str) (K : List Str), vs ≠ [] → (tail = [] ∨ tail.head? = some '\n') →
    deTupleLoop (vs.length + k + 1) first
        { input := (if first then [] else [' ']) ++ (tupleLine vs ++ tail), keys := K }
      = .error (.message (strOf "invalid length")) := by
  intro vs
  induction vs with
  | nil => intro _ _ _ _ h _; exact absurd rfl h
  | cons v vs ih =>
    intro k first tail K _ htail
    cases vs with
    | nil =>
      show deTupleLoop (1 + k + 1) first _ = _
      rw [show 1 + k + 1 = (k + 1) + 1 by omega]
      unfold deTupleLoop
      rw [show tupleLine [v] = natDecimal v from rfl]
      rw [tupleStep v first tail K (noDigHead_of_stop htail)]
      dsimp only
      rw [deTupleLoop_short_zero k tail K htail]
    | cons v' vs' =>
      show deTupleLoop ((v' :: vs').length + 1 + k + 1) first _ = _
      rw [show (v' :: vs').length + 1 + k + 1 = ((v' :: vs').length + k + 1) + 1 by omega]
      unfold deTupleLoop
      rw [tupleLine_cons_cons]
      simp only [List.append_assoc, List.cons_append]
      rw [tupleStep v first (' ' :: (tupleLine (v' :: vs') ++ tail)) K rfl]
      dsimp only
      have hrec := ih k false tail K (by simp) htail
      simp only [Bool.false_eq_true, if_false, List.append_assoc, List.cons_append,
        List.singleton_append, List.nil_append] at hrec
      rw [hrec]

theorem deTupleLoop_over : ∀ (vsL vsR : List Nat) (first : Bool) (tail : Str)
    (K : List Str), vsL ≠ [] → vsR ≠ [] →
    deTupleLoop vsL.length first
        { input := (if first then [] else [' ']) ++ (tupleLine (vsL ++ vsR) ++ tail),
          keys := K }
      = .ok (vsL.map (· % 256),
             { input := ' ' :: (tupleLine vsR ++ tail), keys := K }) := by
  intro vsL
  induction vsL with
  | nil => intro _ _ _ _ h _; exact absurd rfl h
  | cons v vs ih =>
    intro vsR first tail K _ hR
    cases vs with
    | nil =>
      show deTupleLoop 1 first _ = _
      unfold deTupleLoop
      rw [tupleLine_append [v] vsR (by simp) hR]
      rw [show tupleLine [v] = natDecimal v from rfl]
      simp only [List.append_assoc, List.cons_append]
      rw [tupleStep v first (' ' :: (tupleLine vsR ++ tail)) K rfl]
      rfl
    | cons v' vs' =>
      show deTupleLoop ((v' :: vs').length + 1) first _ = _
      unfold deTupleLoop
      rw [show (v :: v' :: vs') ++ vsR = v :: ((v' :: vs') ++ vsR) from rfl]
      have hline : tupleLine (v :: ((v' :: vs') ++ vsR))
          = natDecimal v ++ ' ' :: tupleLine ((v' :: vs') ++ vsR) := by
        show tupleLine (v :: (v' :: (vs' ++ vsR))) = _
        exact tupleLine_cons_cons v v' (vs' ++ vsR)
      rw [hline]
      simp only [List.append_assoc, List.cons_append]
      rw [tupleStep v first (' ' :: (tupleLine (v' :: (vs' ++ vsR)) ++ tail)) K rfl]
      dsimp only
      have hrec := ih vsR false tail K (by simp) hR
      simp only [Bool.false_eq_true, if_false, List.append_assoc, List.cons_append,
        List.singleton_append, List.nil_append] at hrec
      rw [hrec]
      rfl

/-- **C4** amended.  Decoding a tuple field of schema-known length `L`: a line
of exactly `L` whitespace-separated decimal tokens decodes successfully
(values taken mod 256 at the `u8` instantiation), consuming the whole line;
a line with *fewer* than `L` tokens makes the decode fail with the length
error; but a line with *more* than `L` tokens does **not** fail — the first
`L` tokens are decoded and the rest of the line is left unconsumed (to be
skipped when the enclosing record's map ends). -/
theorem claim_C4_amended (vs : List Nat) (tail : Str) (K : List Str) (k : Nat)
    (hvs : vs ≠ []) :
    (noDigHead tail = true →
      deserializeTupleU8 vs.length { input := tupleLine vs ++ tail, keys := K }
        = .ok (vs.map (· % 256), { input := tail, keys := K })) ∧
    (tail = [] ∨ tail.head? = some '\n' →
      deserializeTupleU8 (vs.length + k + 1)
          { input := tupleLine vs ++ tail, keys := K }
        = .error (.message (strOf "invalid length"))) ∧
    (∀ vsR, vsR ≠ [] →
      deserializeTupleU8 vs.length
          { input := tupleLine (vs ++ vsR) ++ tail, keys := K }
        = .ok (vs.map (· % 256),
               { input := ' ' :: (tupleLine vsR ++ tail), keys := K })) := by
  obtain ⟨v, vs', rfl⟩ : ∃ v vs', vs = v :: vs' := by
    cases vs with
    | nil => exact absurd rfl hvs
    | cons v vs' => exact ⟨v, vs', rfl⟩
  have htrim : ∀ (X : Str), tupleTrim { input := natDecimal v ++ X, keys := K }
      = { input := natDecimal v ++ X, keys := K } := by
    intro X
    unfold tupleTrim
    rw [trimStart_dig_append]
  have hhead : ∀ (X : Str), tupleLine (v :: vs') ++ X
      = natDecimal v ++ (spTail (vs'.map natDecimal) ++ X) := by
    intro X
    unfold tupleLine
    rw [List.map_cons, joinSp_cons, List.append_assoc]
  refine ⟨?_, ?_, ?_⟩
  · intro htail
    unfold deserializeTupleU8
    rw [hhead tail, htrim _, ← List.append_assoc, ← joinSp_cons, ← List.map_cons]
    have := deTupleLoop_exact (v :: vs') true tail K (by simp) htail
    simpa using this
  · intro htail
    unfold deserializeTupleU8
    rw [hhead tail, htrim _, ← List.append_assoc, ← joinSp_cons, ← List.map_cons]
    have := deTupleLoop_short (v :: vs') k true tail K (by simp) htail
    simpa using this
  · intro vsR hR
    unfold deserializeTupleU8
    have hhead2 : tupleLine ((v :: vs') ++ vsR) ++ tail
        = natDecimal v ++ (spTail ((vs' ++ vsR).map natDecimal) ++ tail) := by
      rw [show (v :: vs') ++ vsR = v :: (vs' ++ vsR) from rfl]
      unfold tupleLine
      rw [List.map_cons, joinSp_cons, List.append_assoc]
    rw [hhead2, htrim _, ← List.append_assoc, ← joinSp_cons, ← List.map_cons]
    have := deTupleLoop_over (v :: vs') vsR true tail K (by simp) hR
    simp only [if_true, List.nil_append] at this
    rw [show (v :: (vs' ++ vsR)) = (v :: vs') ++ vsR from rfl]
    exact this

/-- Witness for C4's amended claim: the two-token line `"0 0"` decoded as a
2-length tuple succeeds and consumes both tokens. -/
theorem claim_C4_amended_witness :
    deserializeTupleU8 2 { input := tupleLine [0, 0] ++ [], keys := [] }
      = .ok ([0, 0].map (· % 256), { input := [], keys := [] }) :=
  (claim_C4_amended [0, 0] [] [] 0 (by decide)).1 (by decide)

/-! ### C2: sequence grouping -/

theorem skipOneNl_cons {c : Char} (l : Str) (h : c ≠ '\n') :
    skipOneNl (c :: l) = c :: l := by
  unfold skipOneNl
  simp [h]

theorem trimStart_cons_nws {c : Char} (l : Str) (h : isWsChar c = false) :
    trimStart (c :: l) = c :: l := by
  unfold trimStart
  rw [List.dropWhile_cons, h]
  simp

theorem trimMatches_cons_ne {t c : Char} (l : Str) (h : (c == t) = false) :
    trimMatches t (c :: l) = c :: l := by
  unfold trimMatches
  rw [List.dropWhile_cons, h]
  simp

theorem takeWhile_head_false {p : Char → Bool} {w : Str}
    (h : ∀ c, w.head? = some c → p c = false) :
    w.takeWhile p = [] := by
  cases w with
  | nil => rfl
  | cons c cs =>
    rw [List.takeWhile_cons, h c rfl]
    simp

theorem dropWhile_head_false {p : Char → Bool} {w : Str}
    (h : ∀ c, w.head? = some c → p c = false) :
    w.dropWhile p = w := by
  cases w with
  | nil => rfl
  | cons c cs =>
    rw [List.dropWhile_cons, h c rfl]
    simp

/-- Computation rule: dropping a predicate over a literal prefix of an
append. -/
theorem litDrop {p : Char → Bool} (lit lit2 Y : Str)
    (h : lit.dropWhile p = lit2) (hne : lit2 ≠ []) :
    (lit ++ Y).dropWhile p = lit2 ++ Y := by
  rw [dropWhile_append_stop Y (h ▸ hne), h]

/-- Computation rule: taking a predicate over a literal prefix of an
append. -/
theorem litTake {p : Char → Bool} (lit lit2 Y : Str)
    (h : lit.takeWhile p = lit2) (hlen : lit2.length ≠ lit.length) :
    (lit ++ Y).takeWhile p = lit2 := by
  rw [takeWhile_append_stop Y (by rw [h]; exact hlen), h]

/-- `next_element_seed` on the first element: the input already sits at the
block tag, nothing is trimmed, and the element is parsed in place. -/
theorem seqNextRaw_first (d : De) (c : Char) (l : Str)
    (hin : d.input = c :: l) (hc1 : isWsChar c = false) (hc2 : (c == '.') = false)
    (hc3 : (c == '\n') = false) :
    seqNextRaw true d = .go d := by
  unfold seqNextRaw
  rw [hin]
  dsimp only
  rw [if_neg (List.cons_ne_nil c l)]
  rw [trimMatches_cons_ne _ hc3, trimStart_cons_nws _ hc1]
  rw [if_neg (by simp)]
  rw [if_pos rfl]
  rw [trimMatches_cons_ne _ hc2, trimStart_cons_nws _ hc1, ← hin]

/-- `next_element_seed` on a later block of the same tag at depth 1: the
leading newline, space, and dot are trimmed and the element is parsed at its
tag. -/
theorem seqNextRaw_mid (v : Nat) (R : Str) (K : List Str)
    (hlast : K.getLast? = some (strOf "funktionen")) (hlen : K.length = 2) :
    seqNextRaw false { input := funkBlockRest v ++ R, keys := K }
      = .go { input := strOf "funktionen\n ..nr=" ++ (natDecimal v ++ R),
              keys := K } := by
  have hsplit : funkBlockRest v ++ R
      = strOf "\n .funktionen\n ..nr=" ++ (natDecimal v ++ R) := by
    unfold funkBlockRest
    rw [List.append_assoc]
  unfold seqNextRaw
  dsimp only
  rw [hsplit]
  have hne : strOf "\n .funktionen\n ..nr=" ++ (natDecimal v ++ R) ≠ [] := by
    rw [show strOf "\n .funktionen\n ..nr=" ++ (natDecimal v ++ R)
          = '\n' :: (strOf " .funktionen\n ..nr=" ++ (natDecimal v ++ R)) from rfl]
    exact List.cons_ne_nil _ _
  rw [if_neg hne]
  rw [show (trimMatches '\n' (strOf "\n .funktionen\n ..nr=" ++ (natDecimal v ++ R)))
        = strOf " .funktionen\n ..nr=" ++ (natDecimal v ++ R) from
      litDrop _ _ _ (by decide) (by decide)]
  rw [show (trimStart (strOf " .funktionen\n ..nr=" ++ (natDecimal v ++ R)))
        = strOf ".funktionen\n ..nr=" ++ (natDecimal v ++ R) from
      litDrop _ _ _ (by decide) (by decide)]
  rw [litTake (strOf ".funktionen\n ..nr=") (strOf ".") _ (by decide) (by decide)]
  rw [if_neg (by rw [hlen]; decide)]
  rw [show (trimMatches '.' (strOf ".funktionen\n ..nr=" ++ (natDecimal v ++ R)))
        = strOf "funktionen\n ..nr=" ++ (natDecimal v ++ R) from
      litDrop _ _ _ (by decide) (by decide)]
  have hkey : lineKeyTok (strOf "funktionen\n ..nr=" ++ (natDecimal v ++ R))
      = strOf "funktionen" := by
    unfold lineKeyTok
    rw [show (trimStart (strOf "funktionen\n ..nr=" ++ (natDecimal v ++ R)))
          = strOf "funktionen\n ..nr=" ++ (natDecimal v ++ R) from
        litDrop _ _ _ (by decide) (by decide)]
    rw [litTake (strOf "funktionen\n ..nr=") (strOf "funktionen") _ (by decide)
      (by decide)]
    decide
  rw [hkey, hlast]
  dsimp only
  rw [show (trimStart (strOf "funktionen\n ..nr=" ++ (natDecimal v ++ R)))
        = strOf "funktionen\n ..nr=" ++ (natDecimal v ++ R) from
      litDrop _ _ _ (by decide) (by decide)]
  simp

/-- `next_element_seed` at a conforming sequence tail: the sequence stops and
the input is left unconsumed. -/
theorem seqNextRaw_tail (tail : Str) (K : List Str)
    (hlast : K.getLast? = some (strOf "funktionen")) (hlen : K.length = 2)
    (htail : seqTailOk tail = true) :
    seqNextRaw false { input := tail, keys := K } = .stop := by
  cases tail with
  | nil => rfl
  | cons c1 t1 =>
    cases t1 with
    | nil => simp [seqTailOk] at htail
    | cons c2 t2 =>
      cases t2 with
      | nil => simp [seqTailOk] at htail
      | cons c3 w =>
        simp only [seqTailOk, Bool.and_eq_true, decide_eq_true_eq, ne_eq] at htail
        obtain ⟨⟨⟨⟨h1, h2⟩, h3⟩, h4⟩, h5⟩ := htail
        subst h1
        subst h2
        subst h3
        have htww : w.takeWhile (· == '.') = [] :=
          takeWhile_head_false (fun c hc => by
            simp only [beq_eq_false_iff_ne, ne_eq]
            intro hcdot
            exact h4 (by rw [hc, hcdot]))
        have hdw : w.dropWhile (· == '.') = w :=
          dropWhile_head_false (fun c hc => by
            simp only [beq_eq_false_iff_ne, ne_eq]
            intro hcdot
            exact h4 (by rw [hc, hcdot]))
        unfold seqNextRaw
        dsimp only
        rw [if_neg (List.cons_ne_nil _ _)]
        rw [show (trimMatches '\n' ('\n' :: ' ' :: '.' :: w)) = ' ' :: '.' :: w by
          unfold trimMatches
          rw [List.dropWhile_cons]
          simp [List.dropWhile_cons]]
        rw [show (trimStart (' ' :: '.' :: w)) = '.' :: w by
          unfold trimStart
          simp [List.dropWhile_cons, show isWsChar ' ' = true from rfl,
            show isWsChar '.' = false from rfl]]
        rw [show (('.' :: w).takeWhile (· == '.')) = ['.'] by
          rw [List.takeWhile_cons]
          simp [htww]]
        rw [if_neg (by rw [hlen]; decide)]
        rw [show (trimMatches '.' ('.' :: w)) = w by
          unfold trimMatches
          rw [List.dropWhile_cons]
          simp only [beq_self_eq_true, if_true]
          exact hdw]
        rw [hlast]
        dsimp only
        rw [if_pos h5]
        simp

theorem noDigHead_of_elemRestOk {rest : Str} (h : elemRestOk rest = true) :
    noDigHead rest = true := by
  cases rest with
  | nil => rfl
  | cons c cs =>
    unfold elemRestOk at h
    simp only [Bool.and_eq_true, decide_eq_true_eq] at h
    obtain ⟨hc, _⟩ := h
    subst hc
    rfl

/-- `next_key_seed` stops, leaving the state untouched, at a conforming
element rest (it is either end of input or a line below the stack depth). -/
theorem mapNextKey_stop (rest : Str) (K : List Str)
    (hlen : K.length = 2) (hrest : elemRestOk rest = true) :
    mapNextKey false { input := rest, keys := K }
      = .ok (none, { input := rest, keys := K }) := by
  cases rest with
  | nil => rfl
  | cons c cs =>
    unfold elemRestOk at hrest
    simp only [Bool.and_eq_true, decide_eq_true_eq] at hrest
    obtain ⟨hc, hs, hl⟩ := hrest
    subst hc
    unfold mapNextKey
    rw [if_neg (List.cons_ne_nil _ _)]
    dsimp only
    rw [if_neg (by simpa [List.isEmpty_iff] using hs)]
    rw [if_pos (by rw [hlen]; exact hl)]

/-- `parse_string` on the first field line of a `funktionen` block: the two
dots are consumed and the key `nr` is returned, the input left at the `=`. -/
theorem parseString_nr (Y : Str) (K : List Str) :
    parseString { input := strOf "..nr=" ++ Y, keys := K }
      = .ok (strOf "nr", { input := '=' :: Y, keys := K }) := by
  have hcons : strOf "..nr=" ++ Y = '.' :: (strOf ".nr=" ++ Y) := rfl
  unfold parseString
  rw [hcons]
  rw [if_pos (by rfl)]
  dsimp only
  rw [show trimMatches '.' ('.' :: (strOf ".nr=" ++ Y)) = strOf "nr=" ++ Y by
    rw [← hcons]
    exact litDrop _ _ _ (by decide) (by decide)]
  rw [List.takeWhile_append]
  rw [if_pos (by decide)]
  rw [show findCharIdx '='
        (strOf "nr=" ++ List.takeWhile (fun c => decide (c ≠ '\n')) Y)
        = some 2 from findCharIdx_append_some _ (by decide)]
  dsimp only
  rw [List.take_append_of_le_length (by decide),
    List.drop_append_of_le_length (by decide)]
  rfl

/-- `next_key_seed` on the first field line of a `funktionen` block. -/
theorem mapNextKey_nr (Y : Str) (K : List Str) (hlen : K.length = 2) :
    mapNextKey true { input := strOf " ..nr=" ++ Y, keys := K }
      = .ok (some (strOf "nr"), { input := '=' :: Y, keys := K }) := by
  have hcons : strOf " ..nr=" ++ Y = ' ' :: (strOf "..nr=" ++ Y) := rfl
  have hcons2 : strOf "..nr=" ++ Y = '.' :: (strOf ".nr=" ++ Y) := rfl
  have hne2 : strOf "..nr=" ++ Y ≠ [] := by
    rw [hcons2]; exact List.cons_ne_nil _ _
  have htm : trimMatches '\n' (strOf " ..nr=" ++ Y) = strOf " ..nr=" ++ Y :=
    litDrop _ _ _ (by decide) (by decide)
  have hts : trimStart (strOf " ..nr=" ++ Y) = strOf "..nr=" ++ Y :=
    litDrop _ _ _ (by decide) (by decide)
  have htw : (strOf "..nr=" ++ Y).takeWhile (· == '.') = strOf ".." :=
    litTake _ _ _ (by decide) (by decide)
  unfold mapNextKey
  rw [if_neg (by rw [hcons]; exact List.cons_ne_nil _ _)]
  rw [htm, hts]
  rw [if_neg hne2]
  rw [htw]
  rw [if_neg (by rw [hlen]; decide)]
  rw [if_pos rfl]
  dsimp only
  rw [hts]
  rw [if_neg hne2]
  rw [parseString_nr]

/-- Decoding one `funktionen { nr: u8 }` element followed by a conforming
rest: exactly the block is consumed, the value is returned mod 256, and the
tag is pushed on the key stack unless already on top. -/
theorem deFunk_block (v : Nat) (rest : Str) (K : List Str)
    (hlen : ((if K.getLast? = some (strOf "funktionen") then K
              else K ++ [strOf "funktionen"])).length = 2)
    (hrest : elemRestOk rest = true) :
    deFunk { input := strOf "funktionen\n ..nr=" ++ (natDecimal v ++ rest),
             keys := K }
      = .ok (v % 256,
          { input := rest,
            keys := if K.getLast? = some (strOf "funktionen") then K
                    else K ++ [strOf "funktionen"] }) := by
  set K' : List Str := if K.getLast? = some (strOf "funktionen") then K
      else K ++ [strOf "funktionen"] with hK'
  set Y : Str := natDecimal v ++ rest with hY
  have hopen : structOpen (strOf "funktionen")
        { input := strOf "funktionen\n ..nr=" ++ Y, keys := K }
      = .ok { input := strOf " ..nr=" ++ Y, keys := K' } := by
    rw [structOpen_eq]
    have hskip : skipOneNl (strOf "funktionen\n ..nr=" ++ Y)
        = strOf "funktionen\n ..nr=" ++ Y := by
      rw [show strOf "funktionen\n ..nr=" ++ Y
            = 'f' :: (strOf "unktionen\n ..nr=" ++ Y) from rfl]
      exact skipOneNl_cons _ (by decide)
    rw [hskip]
    rw [show trimStart (strOf "funktionen\n ..nr=" ++ Y)
          = strOf "funktionen\n ..nr=" ++ Y from
        litDrop _ _ _ (by decide) (by decide)]
    have hsw : startsWith (strOf "funktionen\n ..nr=" ++ Y)
        (strOf "funktionen") = true := by
      rw [show strOf "funktionen\n ..nr=" ++ Y
            = strOf "funktionen" ++ (strOf "\n ..nr=" ++ Y) from rfl]
      exact startsWith_of_append _ _
    rw [if_neg (by rw [hsw]; simp)]
    rw [show findCharIdx '\n' (strOf "funktionen\n ..nr=" ++ Y) = some 10 from
      findCharIdx_append_some _ (by decide)]
    dsimp only
    rw [List.drop_append_of_le_length (by decide)]
    rfl
  have hlen' : K'.length = 2 := hlen
  have h1 : funkFieldLoop 3 true none { input := strOf " ..nr=" ++ Y, keys := K' }
      = .ok (some (v % 256), { input := rest, keys := K' }) := by
    show funkFieldLoop (2 + 1) true none _ = _
    unfold funkFieldLoop
    rw [mapNextKey_nr Y K' hlen']
    dsimp only
    rw [if_pos rfl]
    unfold mapNextValue
    dsimp only [List.head?, List.tail]
    rw [if_pos rfl]
    rw [hY, parseUnsigned_decimal 256 v rest K' (by omega)
      (noDigHead_of_elemRestOk hrest)]
    dsimp only
    show funkFieldLoop (1 + 1) false (some (v % 256)) _ = _
    unfold funkFieldLoop
    rw [mapNextKey_stop rest K' hlen' hrest]
  unfold deFunk
  rw [hopen]
  dsimp only
  rw [h1]

theorem elemRestOk_of_seqTailOk {tail : Str} (h : seqTailOk tail = true) :
    elemRestOk tail = true := by
  cases tail with
  | nil => rfl
  | cons c1 t1 =>
    cases t1 with
    | nil => simp [seqTailOk] at h
    | cons c2 t2 =>
      cases t2 with
      | nil => simp [seqTailOk] at h
      | cons c3 w =>
        simp only [seqTailOk, Bool.and_eq_true, decide_eq_true_eq, ne_eq] at h
        obtain ⟨⟨⟨⟨h1, h2⟩, h3⟩, h4⟩, _⟩ := h
        subst h1
        subst h2
        subst h3
        have htww : w.takeWhile (· == '.') = [] :=
          takeWhile_head_false (fun c hc => by
            simp only [beq_eq_false_iff_ne, ne_eq]
            intro hcdot
            exact h4 (by rw [hc, hcdot]))
        unfold elemRestOk
        simp only [Bool.and_eq_true, decide_eq_true_eq]
        refine ⟨trivial, ?_⟩
        rw [show (trimMatches '\n' ('\n' :: ' ' :: '.' :: w)) = ' ' :: '.' :: w by
          unfold trimMatches
          rw [List.dropWhile_cons]
          simp [List.dropWhile_cons]]
        rw [show (trimStart (' ' :: '.' :: w)) = '.' :: w by
          unfold trimStart
          simp [List.dropWhile_cons, show isWsChar ' ' = true from rfl,
            show isWsChar '.' = false from rfl]]
        rw [show (('.' :: w).takeWhile (· == '.')) = ['.'] by
          rw [List.takeWhile_cons]
          simp [htww]]
        simp

theorem elemRestOk_block (v : Nat) (R : Str) :
    elemRestOk (funkBlockRest v ++ R) = true := by
  have hsplit : funkBlockRest v ++ R
      = '\n' :: (strOf " .funktionen\n ..nr=" ++ (natDecimal v ++ R)) := by
    unfold funkBlockRest
    rw [List.append_assoc]
    rfl
  rw [hsplit]
  unfold elemRestOk
  simp only [Bool.and_eq_true, decide_eq_true_eq]
  refine ⟨trivial, ?_⟩
  rw [show (trimMatches '\n'
        ('\n' :: (strOf " .funktionen\n ..nr=" ++ (natDecimal v ++ R))))
      = strOf " .funktionen\n ..nr=" ++ (natDecimal v ++ R) by
    rw [show ('\n' :: (strOf " .funktionen\n ..nr=" ++ (natDecimal v ++ R)) : Str)
          = strOf "\n .funktionen\n ..nr=" ++ (natDecimal v ++ R) from rfl]
    exact litDrop _ _ _ (by decide) (by decide)]
  rw [show (trimStart (strOf " .funktionen\n ..nr=" ++ (natDecimal v ++ R)))
        = strOf ".funktionen\n ..nr=" ++ (natDecimal v ++ R) from
      litDrop _ _ _ (by decide) (by decide)]
  rw [litTake (strOf ".funktionen\n ..nr=") (strOf ".") _ (by decide) (by decide)]
  constructor
  · rw [show strOf ".funktionen\n ..nr=" ++ (natDecimal v ++ R)
          = '.' :: (strOf "funktionen\n ..nr=" ++ (natDecimal v ++ R)) from rfl]
    simp
  · decide

theorem elemRestOk_rest (vs : List Nat) (tail : Str)
    (h : seqTailOk tail = true) :
    elemRestOk (funkBlocksRest vs ++ tail) = true := by
  cases vs with
  | nil =>
    rw [show funkBlocksRest [] = ([] : Str) from rfl, List.nil_append]
    exact elemRestOk_of_seqTailOk h
  | cons v vs =>
    rw [show funkBlocksRest (v :: vs) = funkBlockRest v ++ funkBlocksRest vs from rfl]
    rw [List.append_assoc]
    exact elemRestOk_block v _

/-- The sequence loop after the first element: every further same-tag block
becomes one more element, and a conforming tail stops the loop with the
input unconsumed. -/
theorem vecFunkLoop_rest : ∀ (vs : List Nat) (tail : Str) (acc : List Nat),
    (∀ x ∈ vs, x < 256) → seqTailOk tail = true →
    vecFunkLoop (vs.length + 1) false acc
        { input := funkBlocksRest vs ++ tail,
          keys := [strOf "lokomotive", strOf "funktionen"] }
      = .ok (acc ++ vs,
          { input := tail, keys := [strOf "lokomotive", strOf "funktionen"] }) := by
  intro vs
  induction vs with
  | nil =>
    intro tail acc _ htail
    show vecFunkLoop (0 + 1) false acc _ = _
    unfold vecFunkLoop
    rw [show funkBlocksRest [] ++ tail = tail from List.nil_append tail]
    rw [seqNextRaw_tail tail _ (by decide) (by decide) htail]
    simp
  | cons v vs ih =>
    intro tail acc hv htail
    show vecFunkLoop (vs.length + 1 + 1) false acc _ = _
    unfold vecFunkLoop
    rw [show funkBlocksRest (v :: vs) ++ tail
          = funkBlockRest v ++ (funkBlocksRest vs ++ tail) by
        rw [show funkBlocksRest (v :: vs)
              = funkBlockRest v ++ funkBlocksRest vs from rfl]
        rw [List.append_assoc]]
    rw [seqNextRaw_mid v (funkBlocksRest vs ++ tail) _ (by decide) (by decide)]
    dsimp only
    rw [deFunk_block v (funkBlocksRest vs ++ tail) _ (by decide)
      (elemRestOk_rest vs tail htail)]
    dsimp only
    rw [show (if ([strOf "lokomotive", strOf "funktionen"] : List Str).getLast?
            = some (strOf "funktionen")
          then [strOf "lokomotive", strOf "funktionen"]
          else [strOf "lokomotive", strOf "funktionen"] ++ [strOf "funktionen"])
        = [strOf "lokomotive", strOf "funktionen"] from by decide]
    rw [Nat.mod_eq_of_lt (hv v (List.mem_cons_self v vs))]
    rw [ih tail (acc ++ [v]) (fun x hx => hv x (List.mem_cons_of_mem v hx)) htail]
    simp

/-- **C2** amended.  Given `1 + N` consecutive `funktionen` blocks at depth 1
followed by a conforming tail — end of input, or a block line whose leading
token is *not* `funktionen` at depth ≤ 1 — the decoder produces exactly one
sequence element per block, leaves the tail unconsumed for the parent
record, and pops the sequence tag off the key stack.  (Termination is
decided by the tag comparison alone: per the counterexample, a same-tag
block at shallower depth is consumed as a further element rather than
ending the sequence, and a non-first block at depth ≥ the stack depth is a
`WrongLevel` error.) -/
theorem claim_C2_amended (v : Nat) (vs : List Nat) (tail : Str)
    (hv : v < 256) (hvs : ∀ x ∈ vs, x < 256) (htail : seqTailOk tail = true) :
    deVecFunk (vs.length + 2)
        { input := funkSeqInput v vs tail, keys := [strOf "lokomotive"] }
      = .ok (v :: vs, { input := tail, keys := [strOf "lokomotive"] }) := by
  have hinput : funkSeqInput v vs tail
      = strOf "funktionen\n ..nr=" ++ (natDecimal v ++ (funkBlocksRest vs ++ tail)) := by
    unfold funkSeqInput
    simp [List.append_assoc]
  unfold deVecFunk
  have hloop : vecFunkLoop (vs.length + 2) true []
        { input := funkSeqInput v vs tail, keys := [strOf "lokomotive"] }
      = .ok ([v] ++ vs,
          { input := tail, keys := [strOf "lokomotive", strOf "funktionen"] }) := by
    show vecFunkLoop (vs.length + 1 + 1) true [] _ = _
    unfold vecFunkLoop
    rw [seqNextRaw_first _ 'f'
      (strOf "unktionen\n ..nr=" ++ (natDecimal v ++ (funkBlocksRest vs ++ tail)))
      (by rw [hinput]; rfl) (by decide) (by decide) (by decide)]
    dsimp only
    rw [hinput]
    rw [deFunk_block v (funkBlocksRest vs ++ tail) _ (by decide)
      (elemRestOk_rest vs tail htail)]
    dsimp only
    rw [show (if ([strOf "lokomotive"] : List Str).getLast?
            = some (strOf "funktionen")
          then [strOf "lokomotive"]
          else [strOf "lokomotive"] ++ [strOf "funktionen"])
        = [strOf "lokomotive", strOf "funktionen"] from by decide]
    rw [Nat.mod_eq_of_lt hv]
    rw [show ([] ++ [v] : List Nat) = [v] from rfl]
    exact vecFunkLoop_rest vs tail [v] hvs htail
  rw [hloop]
  simp

/-- Witness for C2's amended claim: two blocks (`nr=1`, `nr=2`) followed by a
different-tag line decode to exactly two elements with the tail line left
unconsumed. -/
theorem claim_C2_amended_witness :
    deVecFunk 3 { input := funkSeqInput 1 [2] (strOf "\n .blocks=0"),
                  keys := [strOf "lokomotive"] }
      = .ok ([1, 2], { input := strOf "\n .blocks=0",
                       keys := [strOf "lokomotive"] }) :=
  claim_C2_amended 1 [2] (strOf "\n .blocks=0") (by decide) (by decide) (by decide)

/-! ### C3: the indentation/depth refinement

The encoder (`serTop`) is proved equal to the depth-indexed reference
renderer (`refTop`) on schema-conforming trees.  The proof is a mutual
induction over the field tree, with the serializer state's output tracked up
to its last character (which decides the newline separator and the
header-elision test in `serialize_struct`). -/

theorem tagOk_facts {t : Str} (h : tagOk t = true) :
    t ≠ [] ∧ t.getLast? ≠ some '\n' ∧ t.getLast? ≠ some '='
      ∧ isBracketName t = false := by
  unfold tagOk at h
  cases hL : t.getLast? with
  | none => rw [hL] at h; simp at h
  | some c =>
    rw [hL] at h
    have hnl : c ≠ '\n' := by intro hc; rw [hc] at h; exact absurd h (by decide)
    have heq : c ≠ '=' := by intro hc; rw [hc] at h; exact absurd h (by decide)
    have hbr : c ≠ ']' := by intro hc; rw [hc] at h; exact absurd h (by decide)
    refine ⟨?_, ?_, ?_, ?_⟩
    · intro h0; rw [h0] at hL; simp at hL
    · simp [hnl]
    · simp [heq]
    · unfold isBracketName
      rw [endsWith_false_of_getLast_ne (by simp) (by rw [hL]; simp [hbr])]
      simp

/-- An emitted field's reference rendering with the newline flag off is a
newline followed by the flag-on rendering. -/
theorem refField_false (d : Nat) (f : Field) (habs : ∀ k, f ≠ .absentF k) :
    refField false d f = '\n' :: refField true d f := by
  cases f with
  | scalarF k sc => simp [refField, nlStr]
  | absentF k => exact absurd rfl (habs k)
  | tupleF k es => simp [refField, nlStr]
  | recordF t fs => simp [refField, nlStr]
  | seqF t es => cases es <;> simp [refField, nlStr]

/-- The same for a whole field list, provided it emits anything. -/
theorem refFieldsB_false_eq (d : Nat) : ∀ (fs : List Field),
    refFieldsB true d fs ≠ [] →
    refFieldsB false d fs = '\n' :: refFieldsB true d fs := by
  intro fs
  induction fs with
  | nil => intro h; simp [refFieldsB] at h
  | cons f rest ih =>
    intro h
    cases f with
    | absentF k =>
      show refFieldsB false d rest = '\n' :: refFieldsB true d rest
      exact ih (by simpa [refFieldsB] using h)
    | scalarF k sc =>
      show refField false d (.scalarF k sc) ++ refFieldsB false d rest
        = '\n' :: (refField true d (.scalarF k sc) ++ refFieldsB false d rest)
      rw [refField_false d _ (fun x hx => Field.noConfusion hx)]
      simp
    | tupleF k es =>
      show refField false d (.tupleF k es) ++ refFieldsB false d rest
        = '\n' :: (refField true d (.tupleF k es) ++ refFieldsB false d rest)
      rw [refField_false d _ (fun x hx => Field.noConfusion hx)]
      simp
    | recordF t gs =>
      show refField false d (.recordF t gs) ++ refFieldsB false d rest
        = '\n' :: (refField true d (.recordF t gs) ++ refFieldsB false d rest)
      rw [refField_false d _ (fun x hx => Field.noConfusion hx)]
      simp
    | seqF t es =>
      show refField false d (.seqF t es) ++ refFieldsB false d rest
        = '\n' :: (refField true d (.seqF t es) ++ refFieldsB false d rest)
      rw [refField_false d _ (fun x hx => Field.noConfusion hx)]
      simp

theorem joinSp_ne_nil (rs : List Str) (hne : rs ≠ []) (hr : ∀ r ∈ rs, r ≠ []) :
    joinSp rs ≠ [] := by
  match rs with
  | [] => exact absurd rfl hne
  | [r] =>
    show r ≠ []
    exact hr r (by simp)
  | r :: s :: ss =>
    show r ++ ' ' :: joinSp (s :: ss) ≠ []
    simp

theorem joinSp_getLast_ne (c : Char) : ∀ (rs : List Str),
    (∀ r ∈ rs, r ≠ [] ∧ r.getLast? ≠ some c) →
    (joinSp rs).getLast? ≠ some c := by
  intro rs
  induction rs with
  | nil => intro _; simp [joinSp]
  | cons r rest ih =>
    intro h
    cases rest with
    | nil =>
      show (joinSp [r]).getLast? ≠ some c
      exact (h r (by simp)).2
    | cons s ss =>
      show (r ++ ' ' :: joinSp (s :: ss)).getLast? ≠ some c
      have hjne : joinSp (s :: ss) ≠ [] :=
        joinSp_ne_nil (s :: ss) (by simp)
          (fun x hx => (h x (List.mem_cons_of_mem r hx)).1)
      rw [List.getLast?_append_of_ne_nil _
        (show (' ' :: joinSp (s :: ss) : Str) ≠ [] by simp)]
      rw [show (' ' :: joinSp (s :: ss) : Str) = [' '] ++ joinSp (s :: ss) from rfl]
      rw [List.getLast?_append_of_ne_nil _ hjne]
      exact ih (fun x hx => h x (List.mem_cons_of_mem r hx))

/-- Regrouping of one later-sequence-element rendering. -/
theorem refElemsRest_cons (d : Nat) (t : Str) (e : List Field)
    (es : List (List Field)) :
    refElemsRest d t (e :: es)
      = ('\n' :: (fieldIndent d ++ t))
          ++ (refFieldsB false (d + 1) e ++ refElemsRest d t es) := by
  show '\n' :: fieldIndent d ++ t ++ refFieldsB false (d + 1) e
      ++ refElemsRest d t es = _
  simp [List.append_assoc]

/-- The tail of a conforming sequence rendering is nonempty and ends in the
last character of its last element's last field line (so not in `\n`, `=`, or
the tag's last character). -/
theorem refElemsRest_last (d : Nat) (t : Str) : ∀ (es : List (List Field)),
    confElems d t es = true → es ≠ [] →
    refElemsRest d t es ≠ []
      ∧ (refElemsRest d t es).getLast? ≠ some '\n'
      ∧ (refElemsRest d t es).getLast? ≠ some '='
      ∧ (refElemsRest d t es).getLast? ≠ t.getLast? := by
  intro es
  induction es with
  | nil => intro _ hne; exact absurd rfl hne
  | cons e rest ih =>
    intro hconf _
    have hc : confFields (d + 1) e = true
        ∧ refFieldsB true (d + 1) e ≠ []
        ∧ (refFieldsB true (d + 1) e).getLast? ≠ some '\n'
        ∧ (refFieldsB true (d + 1) e).getLast? ≠ some '='
        ∧ (refFieldsB true (d + 1) e).getLast? ≠ t.getLast?
        ∧ confElems d t rest = true := by
      simpa [confElems, Bool.and_eq_true, and_assoc, decide_eq_true_eq] using hconf
    have hF : refFieldsB false (d + 1) e = '\n' :: refFieldsB true (d + 1) e :=
      refFieldsB_false_eq (d + 1) e hc.2.1
    rw [refElemsRest_cons]
    cases rest with
    | nil =>
      have hsplit : refFieldsB false (d + 1) e ++ refElemsRest d t []
          = ['\n'] ++ refFieldsB true (d + 1) e := by
        rw [hF]
        simp [refElemsRest]
      rw [hsplit]
      rw [List.getLast?_append_of_ne_nil _
        (show ['\n'] ++ refFieldsB true (d + 1) e ≠ [] by simp)]
      rw [List.getLast?_append_of_ne_nil _ hc.2.1]
      exact ⟨by simp, hc.2.2.1, hc.2.2.2.1, hc.2.2.2.2.1⟩
    | cons e2 rest2 =>
      have ihr := ih hc.2.2.2.2.2 (by simp)
      have hFR : refFieldsB false (d + 1) e ++ refElemsRest d t (e2 :: rest2) ≠ [] := by
        simp [ihr.1]
      rw [List.getLast?_append_of_ne_nil _ hFR]
      rw [List.getLast?_append_of_ne_nil _ ihr.1]
      exact ⟨by simp, ihr.2.1, ihr.2.2.1, ihr.2.2.2⟩

/-- A conforming emitted field's reference rendering is nonempty and does not
end in a newline. -/
theorem refField_getLast (b : Bool) (d : Nat) (f : Field)
    (hconf : confField d f = true) (habs : ∀ k, f ≠ .absentF k) :
    refField b d f ≠ [] ∧ (refField b d f).getLast? ≠ some '\n' := by
  cases f with
  | absentF k => exact absurd rfl (habs k)
  | scalarF k sc =>
    have hc : sc.render.getLast? ≠ some '\n' := by
      simpa [confField, decide_eq_true_eq] using hconf
    have hsplit : refField b d (.scalarF k sc)
        = (nlStr b ++ (fieldIndent d ++ (k ++ ['=']))) ++ sc.render := by
      show nlStr b ++ fieldIndent d ++ k ++ '=' :: sc.render = _
      simp [List.append_assoc]
    rw [hsplit]
    cases hr : sc.render with
    | nil =>
      refine ⟨by simp, ?_⟩
      simp only [List.append_nil]
      rw [List.getLast?_append_of_ne_nil _
        (show fieldIndent d ++ (k ++ ['=']) ≠ [] by simp)]
      rw [List.getLast?_append_of_ne_nil _
        (show (k ++ ['='] : Str) ≠ [] by simp)]
      rw [List.getLast?_append_of_ne_nil _ (show (['='] : Str) ≠ [] by simp)]
      simp
    | cons c cs =>
      refine ⟨by simp, ?_⟩
      rw [List.getLast?_append_of_ne_nil _ (show (c :: cs : Str) ≠ [] by simp)]
      rw [← hr]
      exact hc
  | tupleF k es =>
    have hc : es ≠ [] ∧ es.all tupElemOk = true := by
      simpa [confField, Bool.and_eq_true, and_assoc, decide_eq_true_eq] using hconf
    have hall : ∀ e ∈ es, Scalar.render e ≠ []
        ∧ (Scalar.render e).getLast? ≠ some '='
        ∧ (Scalar.render e).getLast? ≠ some '\n' := by
      intro e he
      have := List.all_eq_true.mp hc.2 e he
      simpa [tupElemOk, Bool.and_eq_true, and_assoc, decide_eq_true_eq] using this
    have hsplit : refField b d (.tupleF k es)
        = (nlStr b ++ (fieldIndent d ++ (k ++ ['='])))
            ++ joinSp (es.map Scalar.render) := by
      show nlStr b ++ fieldIndent d ++ k ++ '=' :: joinSp (es.map Scalar.render) = _
      simp [List.append_assoc]
    rw [hsplit]
    have hjne : joinSp (es.map Scalar.render) ≠ [] := by
      refine joinSp_ne_nil _ (by simp [hc.1]) ?_
      intro r hr
      obtain ⟨e, he, rfl⟩ := List.mem_map.mp hr
      exact (hall e he).1
    refine ⟨by simp [hjne], ?_⟩
    rw [List.getLast?_append_of_ne_nil _ hjne]
    refine joinSp_getLast_ne '\n' (es.map Scalar.render) ?_
    intro r hr
    obtain ⟨e, he, rfl⟩ := List.mem_map.mp hr
    exact ⟨(hall e he).1, (hall e he).2.2⟩
  | recordF t fs =>
    have hc : tagOk t = true ∧ confFields (d + 1) fs = true
        ∧ refFieldsB true (d + 1) fs ≠ []
        ∧ (refFieldsB true (d + 1) fs).getLast? ≠ some '\n' := by
      simpa [confField, Bool.and_eq_true, and_assoc, decide_eq_true_eq] using hconf
    have hsplit : refField b d (.recordF t fs)
        = (nlStr b ++ (fieldIndent d ++ (t ++ ['\n'])))
            ++ refFieldsB true (d + 1) fs := by
      show nlStr b ++ fieldIndent d ++ t ++ '\n' :: refFieldsB true (d + 1) fs = _
      simp [List.append_assoc]
    rw [hsplit]
    refine ⟨by simp [hc.2.2.1], ?_⟩
    rw [List.getLast?_append_of_ne_nil _ hc.2.2.1]
    exact hc.2.2.2
  | seqF t es =>
    have hc : tagOk t = true ∧ es ≠ [] ∧ confElems d t es = true := by
      simpa [confField, Bool.and_eq_true, and_assoc, Bool.not_eq_true', decide_eq_true_eq]
        using hconf
    cases es with
    | nil => simp at hc
    | cons e rest =>
      have hce : confFields (d + 1) e = true
          ∧ refFieldsB true (d + 1) e ≠ []
          ∧ (refFieldsB true (d + 1) e).getLast? ≠ some '\n'
          ∧ (refFieldsB true (d + 1) e).getLast? ≠ some '='
          ∧ (refFieldsB true (d + 1) e).getLast? ≠ t.getLast?
          ∧ confElems d t rest = true := by
        simpa [confElems, Bool.and_eq_true, and_assoc, decide_eq_true_eq] using hc.2.2
      have hsplit : refField b d (.seqF t (e :: rest))
          = (nlStr b ++ (fieldIndent d ++ (t ++ ['\n'])))
              ++ (refFieldsB true (d + 1) e ++ refElemsRest d t rest) := by
        show nlStr b ++ fieldIndent d ++ t
            ++ '\n' :: refFieldsB true (d + 1) e ++ refElemsRest d t rest = _
        simp [List.append_assoc]
      rw [hsplit]
      have hFRne : refFieldsB true (d + 1) e ++ refElemsRest d t rest ≠ [] := by
        simp [hce.2.1]
      refine ⟨by simp [hFRne], ?_⟩
      rw [List.getLast?_append_of_ne_nil _ hFRne]
      cases rest with
      | nil =>
        simp only [refElemsRest, List.append_nil]
        exact hce.2.2.1
      | cons e2 rest2 =>
        have hR := refElemsRest_last d t (e2 :: rest2) hce.2.2.2.2.2 (by simp)
        rw [List.getLast?_append_of_ne_nil _ hR.1]
        exact hR.2.1

/-- `serialize_field`'s prefix in closed form: optional newline, indentation,
key, `=`. -/
theorem serFieldStart_eq (key : Str) (st : Serializer) :
    serFieldStart key st
      = { level := st.level,
          output := st.output
            ++ (nlStr (endsWith st.output ['\n'])
              ++ (fieldIndent st.level ++ (key ++ ['=']))) } := by
  unfold serFieldStart
  cases hb : endsWith st.output ['\n'] with
  | false =>
    by_cases hl : st.level > 0
    · simp [hb, hl, Serializer.push, nlStr, fieldIndent, List.append_assoc]
    · simp [hb, hl, Serializer.push, nlStr, fieldIndent, List.append_assoc]
  | true =>
    by_cases hl : st.level > 0
    · simp [hb, hl, Serializer.push, nlStr, fieldIndent, List.append_assoc]
    · simp [hb, hl, Serializer.push, nlStr, fieldIndent, List.append_assoc]

/-- `serialize_struct` when the output ends with `key=` for the struct's own
tag: the `=` is dropped, the header is elided, a newline is appended and the
level rises. -/
theorem structOpen_elide (t : Str) (B : Str) (lv : Nat) (htag : tagOk t = true) :
    serializeStructOpen t { level := lv, output := B ++ (t ++ ['=']) }
      = { level := lv + 1, output := B ++ (t ++ ['\n']) } := by
  obtain ⟨htne, htnl, -, -⟩ := tagOk_facts htag
  unfold serializeStructOpen
  have h1 : endsWith (B ++ (t ++ ['='])) ['='] = true := by
    rw [← List.append_assoc]
    exact endsWith_append_self _ _
  have h2 : (B ++ (t ++ ['='])).dropLast = B ++ t := by
    rw [← List.append_assoc, List.dropLast_concat]
  simp only [h1, if_true, h2]
  have h3 : endsWith (B ++ t) t = true := endsWith_append_self B t
  simp only [h3, not_true_eq_false, if_false]
  have h4 : endsWith (B ++ t) ['\n'] = false := by
    refine endsWith_false_of_getLast_ne (by simp) ?_
    rw [List.getLast?_append_of_ne_nil _ htne]
    simpa using htnl
  simp [h4, htne, Serializer.push, List.append_assoc]

/-- `serialize_struct` when the output does not end with the tag, `=`, or a
newline, and is nonempty: a fresh header line `\n` + indent + tag is written
and the level rises (the bracket check never fires for a `tagOk` tag). -/
theorem structOpen_header (t : Str) (st : Serializer) (htag : tagOk t = true)
    (hne : st.output ≠ []) (h1 : st.output.getLast? ≠ some '=')
    (h2 : st.output.getLast? ≠ some '\n') (h3 : st.output.getLast? ≠ t.getLast?) :
    serializeStructOpen t st
      = { level := st.level + 1,
          output := st.output ++ ('\n' :: (fieldIndent st.level ++ t)) } := by
  obtain ⟨htne, -, -, hbr⟩ := tagOk_facts htag
  unfold serializeStructOpen
  have he : endsWith st.output ['='] = false := endsWith_false_iff_getLast.mpr h1
  simp only [he, Bool.false_eq_true, if_false]
  have ht : endsWith st.output t = false := endsWith_false_of_getLast_ne htne h3
  simp only [ht, Bool.false_eq_true, not_false_eq_true, if_true]
  have hn : endsWith st.output ['\n'] = false := endsWith_false_iff_getLast.mpr h2
  by_cases hl : st.level > 0
  · have hlz : ¬ (st.level = 0) := by omega
    simp [hl, hlz, Serializer.push, fieldIndent, List.append_assoc]
  · have hlz : st.level = 0 := by omega
    simp [hl, hlz, hne, hn, hbr, Serializer.push, fieldIndent,
      Bool.false_eq_true, List.append_assoc]

/-- `serialize_struct` from the initial state: the tag alone is written; a
bracket tag leaves the level at 0, any other tag raises it to 1. -/
theorem structOpen_top (t : Str) (ht : t ≠ []) :
    serializeStructOpen t Serializer.init
      = { level := if isBracketName t then 0 else 1, output := t } := by
  unfold serializeStructOpen Serializer.init
  have h1 : endsWith ([] : Str) ['='] = false := by decide
  simp only [h1, Bool.false_eq_true, if_false]
  have h2 : endsWith ([] : Str) t = false := by
    refine endsWith_false_of_getLast_ne ht ?_
    obtain ⟨c, hc⟩ := Option.isSome_iff_exists.mp (List.getLast?_isSome.mpr ht)
    simp [hc]
  simp only [h2, Bool.false_eq_true, not_false_eq_true, if_true]
  cases hb : isBracketName t with
  | true => simp [hb, Serializer.push]
  | false => simp [hb, Serializer.push]

/-- Unfolding of `serFields` at a non-skipped head field. -/
theorem serFields_cons_eq (f : Field) (rest : List Field) (st : Serializer)
    (habs : ∀ k, f ≠ .absentF k) :
    serFields (f :: rest) st
      = serFields rest (serFieldVal f (serFieldStart f.keyOf st)) := by
  cases f with
  | absentF k => exact absurd rfl (habs k)
  | scalarF k sc => rfl
  | tupleF k es => rfl
  | recordF t gs => rfl
  | seqF t es => rfl

/-- Unfolding of `refFieldsB` at a non-skipped head field. -/
theorem refFieldsB_cons_eq (b : Bool) (d : Nat) (f : Field) (rest : List Field)
    (habs : ∀ k, f ≠ .absentF k) :
    refFieldsB b d (f :: rest) = refField b d f ++ refFieldsB false d rest := by
  cases f with
  | absentF k => exact absurd rfl (habs k)
  | scalarF k sc => rfl
  | tupleF k es => rfl
  | recordF t gs => rfl
  | seqF t es => rfl

/-- The cons step of the field-list refinement, with the two mutual facts
taken as hypotheses. -/
theorem serFields_cons_ref (f : Field) (rest : List Field) (st : Serializer)
    (habs : ∀ k, f ≠ .absentF k)
    (hconf : confFields st.level (f :: rest) = true)
    (hstep : serFieldVal f (serFieldStart f.keyOf st)
      = { level := st.level,
          output := st.output
            ++ refField (endsWith st.output ['\n']) st.level f })
    (hrest : ∀ (st' : Serializer), confFields st'.level rest = true →
      serFields rest st'
        = { level := st'.level,
            output := st'.output
              ++ refFieldsB (endsWith st'.output ['\n']) st'.level rest }) :
    serFields (f :: rest) st
      = { level := st.level,
          output := st.output
            ++ refFieldsB (endsWith st.output ['\n']) st.level (f :: rest) } := by
  obtain ⟨hcf, hcr⟩ : confField st.level f = true ∧ confFields st.level rest = true := by
    simpa [confFields, Bool.and_eq_true] using hconf
  have hfl := refField_getLast (endsWith st.output ['\n']) st.level f hcf habs
  rw [serFields_cons_eq f rest st habs, hstep]
  rw [hrest
    { level := st.level,
      output := st.output ++ refField (endsWith st.output ['\n']) st.level f }
    hcr]
  have hnb : endsWith
      (st.output ++ refField (endsWith st.output ['\n']) st.level f) ['\n'] = false := by
    apply endsWith_false_iff_getLast.mpr
    rw [List.getLast?_append_of_ne_nil _ hfl.1]
    exact hfl.2
  rw [hnb, refFieldsB_cons_eq _ _ f rest habs]
  simp [List.append_assoc]

mutual

/-- Mutual refinement, field lists: running `serFields` on a conforming list
appends exactly its reference rendering and preserves the level. -/
theorem serFields_ref (fs : List Field) (st : Serializer)
    (hconf : confFields st.level fs = true) :
    serFields fs st
      = { level := st.level,
          output := st.output
            ++ refFieldsB (endsWith st.output ['\n']) st.level fs } := by
  cases fs with
  | nil =>
    show st = _
    simp [refFieldsB]
  | cons f rest =>
    cases f with
    | absentF k =>
      have hcr : confFields st.level rest = true := by
        simpa [confFields, confField, Bool.and_eq_true] using hconf
      show serFields rest st = _
      rw [serFields_ref rest st hcr]
      rfl
    | scalarF k sc =>
      have hc : confField st.level (.scalarF k sc) = true
          ∧ confFields st.level rest = true := by
        simpa [confFields, Bool.and_eq_true] using hconf
      exact serFields_cons_ref _ rest st (fun x hx => Field.noConfusion hx) hconf
        (serFieldStep_ref _ st hc.1 (fun x hx => Field.noConfusion hx))
        (fun st' h => serFields_ref rest st' h)
    | tupleF k es =>
      have hc : confField st.level (.tupleF k es) = true
          ∧ confFields st.level rest = true := by
        simpa [confFields, Bool.and_eq_true] using hconf
      exact serFields_cons_ref _ rest st (fun x hx => Field.noConfusion hx) hconf
        (serFieldStep_ref _ st hc.1 (fun x hx => Field.noConfusion hx))
        (fun st' h => serFields_ref rest st' h)
    | recordF t gs =>
      have hc : confField st.level (.recordF t gs) = true
          ∧ confFields st.level rest = true := by
        simpa [confFields, Bool.and_eq_true] using hconf
      exact serFields_cons_ref _ rest st (fun x hx => Field.noConfusion hx) hconf
        (serFieldStep_ref _ st hc.1 (fun x hx => Field.noConfusion hx))
        (fun st' h => serFields_ref rest st' h)
    | seqF t es =>
      have hc : confField st.level (.seqF t es) = true
          ∧ confFields st.level rest = true := by
        simpa [confFields, Bool.and_eq_true] using hconf
      exact serFields_cons_ref _ rest st (fun x hx => Field.noConfusion hx) hconf
        (serFieldStep_ref _ st hc.1 (fun x hx => Field.noConfusion hx))
        (fun st' h => serFields_ref rest st' h)
termination_by sizeOf fs

/-- Mutual refinement, one field: writing `key=` and the value appends
exactly the field's reference rendering and preserves the level. -/
theorem serFieldStep_ref (f : Field) (st : Serializer)
    (hconf : confField st.level f = true) (habs : ∀ k, f ≠ .absentF k) :
    serFieldVal f (serFieldStart f.keyOf st)
      = { level := st.level,
          output := st.output
            ++ refField (endsWith st.output ['\n']) st.level f } := by
  cases f with
  | absentF k => exact absurd rfl (habs k)
  | scalarF k sc =>
    show serScalar sc (serFieldStart k st) = _
    rw [serFieldStart_eq, serScalar_push]
    simp [Serializer.push, refField, List.append_assoc]
  | tupleF k es =>
    have hconf' : es ≠ [] ∧ es.all tupElemOk = true := by
      simpa [confField, Bool.and_eq_true, and_assoc, decide_eq_true_eq] using hconf
    have hes : ∀ e ∈ es, e.render ≠ [] ∧ e.render.getLast? ≠ some '=' := by
      intro e he
      have h1 := List.all_eq_true.mp hconf'.2 e he
      have h3 : e.render ≠ [] ∧ e.render.getLast? ≠ some '='
          ∧ e.render.getLast? ≠ some '\n' := by
        simpa [tupElemOk, Bool.and_eq_true, and_assoc, decide_eq_true_eq] using h1
      exact ⟨h3.1, h3.2.1⟩
    have hctx : endsWith (st.output ++ (nlStr (endsWith st.output ['\n'])
        ++ (fieldIndent st.level ++ (k ++ ['='])))) ['='] = true := by
      have hsp : st.output ++ (nlStr (endsWith st.output ['\n'])
            ++ (fieldIndent st.level ++ (k ++ ['='])))
          = (st.output ++ (nlStr (endsWith st.output ['\n'])
            ++ (fieldIndent st.level ++ k))) ++ ['='] := by
        simp [List.append_assoc]
      rw [hsp]
      exact endsWith_append_self _ _
    show serTupleElems es (serFieldStart k st) = _
    rw [serFieldStart_eq]
    rw [serTupleElems_ctx es
      { level := st.level,
        output := st.output ++ (nlStr (endsWith st.output ['\n'])
          ++ (fieldIndent st.level ++ (k ++ ['=']))) } hctx hes]
    simp [refField, List.append_assoc]
  | recordF t gs =>
    obtain ⟨htag, hcf, hRne, hRnl⟩ : tagOk t = true
        ∧ confFields (st.level + 1) gs = true
        ∧ refFieldsB true (st.level + 1) gs ≠ []
        ∧ (refFieldsB true (st.level + 1) gs).getLast? ≠ some '\n' := by
      simpa [confField, Bool.and_eq_true, and_assoc, decide_eq_true_eq] using hconf
    show serializeStructEnd (serFields gs (serializeStructOpen t (serFieldStart t st))) = _
    rw [serFieldStart_eq]
    have hsp :
        ({ level := st.level,
           output := st.output ++ (nlStr (endsWith st.output ['\n'])
             ++ (fieldIndent st.level ++ (t ++ ['=']))) } : Serializer)
          = { level := st.level,
              output := (st.output ++ (nlStr (endsWith st.output ['\n'])
                ++ fieldIndent st.level)) ++ (t ++ ['=']) } := by
      simp [List.append_assoc]
    rw [hsp, structOpen_elide t _ st.level htag]
    rw [serFields_ref gs
      { level := st.level + 1,
        output := (st.output ++ (nlStr (endsWith st.output ['\n'])
            ++ fieldIndent st.level)) ++ (t ++ ['\n']) }
      hcf]
    have hnl : endsWith ((st.output ++ (nlStr (endsWith st.output ['\n'])
        ++ fieldIndent st.level)) ++ (t ++ ['\n'])) ['\n'] = true := by
      rw [show (st.output ++ (nlStr (endsWith st.output ['\n'])
            ++ fieldIndent st.level)) ++ (t ++ ['\n'])
          = ((st.output ++ (nlStr (endsWith st.output ['\n'])
            ++ fieldIndent st.level)) ++ t) ++ ['\n'] from by simp]
      exact endsWith_append_self _ _
    rw [hnl]
    simp [serializeStructEnd, refField, List.append_assoc]
  | seqF t es =>
    obtain ⟨htag, hesne, hce⟩ : tagOk t = true ∧ es ≠ []
        ∧ confElems st.level t es = true := by
      simpa [confField, Bool.and_eq_true, and_assoc, Bool.not_eq_true',
        decide_eq_true_eq] using hconf
    cases es with
    | nil => exact absurd rfl hesne
    | cons e rest =>
      obtain ⟨hcf, hRne, hRnl, hReq, hRt, hcr⟩ : confFields (st.level + 1) e = true
          ∧ refFieldsB true (st.level + 1) e ≠ []
          ∧ (refFieldsB true (st.level + 1) e).getLast? ≠ some '\n'
          ∧ (refFieldsB true (st.level + 1) e).getLast? ≠ some '='
          ∧ (refFieldsB true (st.level + 1) e).getLast? ≠ t.getLast?
          ∧ confElems st.level t rest = true := by
        simpa [confElems, Bool.and_eq_true, and_assoc, decide_eq_true_eq] using hce
      show serSeqElems t rest
          (serializeStructEnd (serFields e (serializeStructOpen t (serFieldStart t st)))) = _
      rw [serFieldStart_eq]
      have hsp :
          ({ level := st.level,
             output := st.output ++ (nlStr (endsWith st.output ['\n'])
               ++ (fieldIndent st.level ++ (t ++ ['=']))) } : Serializer)
            = { level := st.level,
                output := (st.output ++ (nlStr (endsWith st.output ['\n'])
                  ++ fieldIndent st.level)) ++ (t ++ ['=']) } := by
        simp [List.append_assoc]
      rw [hsp, structOpen_elide t _ st.level htag]
      rw [serFields_ref e
        { level := st.level + 1,
          output := (st.output ++ (nlStr (endsWith st.output ['\n'])
              ++ fieldIndent st.level)) ++ (t ++ ['\n']) }
        hcf]
      have hnl : endsWith ((st.output ++ (nlStr (endsWith st.output ['\n'])
          ++ fieldIndent st.level)) ++ (t ++ ['\n'])) ['\n'] = true := by
        rw [show (st.output ++ (nlStr (endsWith st.output ['\n'])
              ++ fieldIndent st.level)) ++ (t ++ ['\n'])
            = ((st.output ++ (nlStr (endsWith st.output ['\n'])
              ++ fieldIndent st.level)) ++ t) ++ ['\n'] from by simp]
        exact endsWith_append_self _ _
      rw [hnl]
      have hend :
          serializeStructEnd
            { level := st.level + 1,
              output := ((st.output ++ (nlStr (endsWith st.output ['\n'])
                  ++ fieldIndent st.level)) ++ (t ++ ['\n']))
                ++ refFieldsB true (st.level + 1) e }
            = { level := st.level,
                output := ((st.output ++ (nlStr (endsWith st.output ['\n'])
                    ++ fieldIndent st.level)) ++ (t ++ ['\n']))
                  ++ refFieldsB true (st.level + 1) e } := by
        simp [serializeStructEnd]
      rw [hend]
      have hO2last : ((((st.output ++ (nlStr (endsWith st.output ['\n'])
            ++ fieldIndent st.level)) ++ (t ++ ['\n']))
            ++ refFieldsB true (st.level + 1) e) : Str).getLast?
          = (refFieldsB true (st.level + 1) e).getLast? :=
        List.getLast?_append_of_ne_nil _ hRne
      rw [serSeqElems_ref rest t
        { level := st.level,
          output := ((st.output ++ (nlStr (endsWith st.output ['\n'])
              ++ fieldIndent st.level)) ++ (t ++ ['\n']))
            ++ refFieldsB true (st.level + 1) e }
        htag hcr (by simp [hRne])
        (by rw [hO2last]; exact hReq)
        (by rw [hO2last]; exact hRnl)
        (by rw [hO2last]; exact hRt)]
      simp [refField, List.append_assoc]
termination_by sizeOf f

/-- Mutual refinement, later sequence elements: each one opens a fresh header
line and appends its reference rendering. -/
theorem serSeqElems_ref (es : List (List Field)) (t : Str) (st : Serializer)
    (htag : tagOk t = true) (hconf : confElems st.level t es = true)
    (hne : st.output ≠ []) (h1 : st.output.getLast? ≠ some '=')
    (h2 : st.output.getLast? ≠ some '\n') (h3 : st.output.getLast? ≠ t.getLast?) :
    serSeqElems t es st
      = { level := st.level, output := st.output ++ refElemsRest st.level t es } := by
  cases es with
  | nil =>
    show st = _
    simp [refElemsRest]
  | cons e rest =>
    obtain ⟨hcf, hRne, hRnl, hReq, hRt, hcr⟩ : confFields (st.level + 1) e = true
        ∧ refFieldsB true (st.level + 1) e ≠ []
        ∧ (refFieldsB true (st.level + 1) e).getLast? ≠ some '\n'
        ∧ (refFieldsB true (st.level + 1) e).getLast? ≠ some '='
        ∧ (refFieldsB true (st.level + 1) e).getLast? ≠ t.getLast?
        ∧ confElems st.level t rest = true := by
      simpa [confElems, Bool.and_eq_true, and_assoc, decide_eq_true_eq] using hconf
    show serSeqElems t rest
        (serializeStructEnd (serFields e (serializeStructOpen t st))) = _
    rw [structOpen_header t st htag hne h1 h2 h3]
    rw [serFields_ref e
      { level := st.level + 1,
        output := st.output ++ ('\n' :: (fieldIndent st.level ++ t)) }
      hcf]
    obtain ⟨htne, htnl, -, -⟩ := tagOk_facts htag
    have hb : endsWith (st.output ++ ('\n' :: (fieldIndent st.level ++ t))) ['\n'] = false := by
      apply endsWith_false_iff_getLast.mpr
      rw [List.getLast?_append_of_ne_nil _
        (show ('\n' :: (fieldIndent st.level ++ t) : Str) ≠ [] by simp)]
      rw [show ('\n' :: (fieldIndent st.level ++ t) : Str)
          = ('\n' :: fieldIndent st.level) ++ t from by simp]
      rw [List.getLast?_append_of_ne_nil _ htne]
      exact htnl
    rw [hb]
    have hF : refFieldsB false (st.level + 1) e
        = '\n' :: refFieldsB true (st.level + 1) e :=
      refFieldsB_false_eq _ e hRne
    have hFne : refFieldsB false (st.level + 1) e ≠ [] := by
      rw [hF]; simp
    have hend :
        serializeStructEnd
          { level := st.level + 1,
            output := (st.output ++ ('\n' :: (fieldIndent st.level ++ t)))
              ++ refFieldsB false (st.level + 1) e }
          = { level := st.level,
              output := (st.output ++ ('\n' :: (fieldIndent st.level ++ t)))
                ++ refFieldsB false (st.level + 1) e } := by
      simp [serializeStructEnd]
    rw [hend]
    have hO2last : (((st.output ++ ('\n' :: (fieldIndent st.level ++ t)))
          ++ refFieldsB false (st.level + 1) e) : Str).getLast?
        = (refFieldsB true (st.level + 1) e).getLast? := by
      rw [List.getLast?_append_of_ne_nil _ hFne]
      rw [hF]
      rw [show ('\n' :: refFieldsB true (st.level + 1) e : Str)
          = ['\n'] ++ refFieldsB true (st.level + 1) e from rfl]
      rw [List.getLast?_append_of_ne_nil _ hRne]
    rw [serSeqElems_ref rest t
      { level := st.level,
        output := (st.output ++ ('\n' :: (fieldIndent st.level ++ t)))
          ++ refFieldsB false (st.level + 1) e }
      htag hcr (by simp [hFne])
      (by rw [hO2last]; exact hReq)
      (by rw [hO2last]; exact hRnl)
      (by rw [hO2last]; exact hRt)]
    rw [refElemsRest_cons]
    simp [List.append_assoc]
termination_by sizeOf es

end

/-- **C3**.  On a schema-conforming tree the encoder's output equals the
depth-indexed reference rendering `refTop`, in which a field line at depth
`d` carries an indentation of exactly `d` dots, `d` being the number of
enclosing non-transparent records: children of a bracket-delimited root tag
render at depth 0 (entering it does not raise the level), children of any
other root at depth 1, and every nested record or sequence element adds one
dot for its children.  The final level returns to 0. -/
theorem claim_C3_depth_markers (t : Str) (fs : List Field)
    (ht : t ≠ []) (htl : t.getLast? ≠ some '\n')
    (hconf : confFields (if isBracketName t then 0 else 1) fs = true) :
    serTop t fs = { level := 0, output := refTop t fs } := by
  unfold serTop refTop
  rw [structOpen_top t ht]
  rw [serFields_ref fs
    { level := if isBracketName t then 0 else 1, output := t } hconf]
  have hb : endsWith t ['\n'] = false := endsWith_false_iff_getLast.mpr htl
  rw [hb]
  cases hbr : isBracketName t with
  | true => simp [serializeStructEnd, hbr]
  | false => simp [serializeStructEnd, hbr]

/-- Witness for C3 at a concrete lokomotive-like tree with a skipped
optional, a tuple field, and a two-element sequence of records. -/
theorem claim_C3_depth_markers_witness :
    serTop (strOf "lokomotive")
        [.scalarF (strOf "name") (.sVal (strOf "Lok")),
         .absentF (strOf "vorname"),
         .tupleF (strOf "blocks") [.uVal 0, .uVal 16],
         .seqF (strOf "funktionen")
           [[.scalarF (strOf "nr") (.uVal 1), .scalarF (strOf "wert") (.uVal 0)],
            [.scalarF (strOf "nr") (.uVal 2)]]]
      = { level := 0,
          output := refTop (strOf "lokomotive")
            [.scalarF (strOf "name") (.sVal (strOf "Lok")),
             .absentF (strOf "vorname"),
             .tupleF (strOf "blocks") [.uVal 0, .uVal 16],
             .seqF (strOf "funktionen")
               [[.scalarF (strOf "nr") (.uVal 1), .scalarF (strOf "wert") (.uVal 0)],
                [.scalarF (strOf "nr") (.uVal 2)]]] } :=
  claim_C3_depth_markers _ _ (by decide) (by decide) (by decide)

end Cs2